/-
Verification of the retrieval-and-verification core of LifeGuardPro
(query expansion, BM25+vector rank fusion, MMR diversity selection,
and Chain-of-Verification claim checking).

Shallow embedding conventions:
* Python floats are modelled as rationals (ℚ).  All score literals in the
  source (0.65, 0.85, 0.7, ...) and all arithmetic on them are exactly
  representable, and the comparisons the code performs are far from any
  float rounding boundary, so ℚ is a faithful model.
* Python dicts carrying result rows are modelled as records whose optional
  fields are `Option`-valued; a key that is absent is identified with a key
  mapped to Python `None` (the search modules never emit `None` scores, so
  the two are indistinguishable in every code path modelled here).
* External services (LLM generation, embedding API, database) are modelled
  as explicit parameters: a call that can raise is a parameter of type
  `Except String _` or a function returning it; a Python exception is the
  `.error` case, and exception propagation is `Except` bind.
* Cosine similarity in the source uses `numpy` square roots, which are not
  rational; the functions that consume similarities are therefore
  parametrised by the similarity function.  Every property proved below
  holds for an arbitrary similarity function, which subsumes the concrete
  floating-point one.
-/
import Mathlib

namespace LifeGuardPro

/-! ## verification/verifier.py -/

/-- Claim status literals from `verifier.py`. -/
inductive ClaimStatus where
  | SUPPORTED
  | PARTIALLY_SUPPORTED
  | UNRESOLVED
  | CONTRADICTED
  deriving DecidableEq, Repr

/-- The `THRESHOLDS` dict of `verifier.py` (module-level defaults). -/
structure Thresholds where
  strongly_supported : ℚ := 75/100
  supported : ℚ := 65/100
  partially_supported : ℚ := 50/100
  weakly_supported : ℚ := 40/100
  deriving DecidableEq, Repr

/-- Default thresholds: `THRESHOLDS` in `verifier.py`. -/
def THRESHOLDS : Thresholds := {}

/-- An evidence mapping as produced by `evidence_mapper.py`
(the dict consumed by `verify_claim`).  Field defaults mirror the
`.get(..., default)` calls in `verify_claim`. -/
structure EvidenceMapping where
  claim : String := ""
  best_match_chunk_id : Option Int := none
  best_match_chunk_index : Int := -1
  best_match_similarity : ℚ := 0
  supporting_chunk_content : String := ""
  keywords_found : Bool := false
  claim_keywords : List String := []
  claim_id : String := "unknown"
  category : String := "general"
  deriving DecidableEq, Repr

/-- A verified claim, the dict returned by `verify_claim`.
The human-readable `reasoning` string (pure f-string formatting of the
similarity percentage) is elided; no verified property concerns it. -/
structure VerifiedClaim where
  claim : String
  claim_id : String
  category : String
  status : ClaimStatus
  confidence : ℚ
  evidence_chunk_id : Option Int
  evidence_snippet : String
  similarity_score : ℚ
  keywords_found : Bool
  deriving DecidableEq, Repr

/-- The status/confidence decision chain of `verify_claim`
(`verifier.py`, lines 82-115). -/
def classify_similarity (similarity : ℚ) (keywords_found : Bool)
    (thresholds : Thresholds) : ClaimStatus × ℚ :=
  if similarity ≥ thresholds.supported then
    if keywords_found then (.SUPPORTED, similarity)
    else (.PARTIALLY_SUPPORTED, similarity * (85/100))
  else if similarity ≥ thresholds.partially_supported then
    if keywords_found then (.PARTIALLY_SUPPORTED, similarity)
    else (.UNRESOLVED, similarity * (7/10))
  else if similarity ≥ thresholds.weakly_supported then
    (.UNRESOLVED, similarity)
  else
    (.UNRESOLVED, similarity)

/-- Embedding of `verify_claim` from `verifier.py` (lines 37-128): threshold
classification of a single evidence mapping. -/
def verify_claim (em : EvidenceMapping) (thresholds : Thresholds) : VerifiedClaim :=
  let sc := classify_similarity em.best_match_similarity em.keywords_found thresholds
  { claim := em.claim
    claim_id := em.claim_id
    category := em.category
    status := sc.1
    confidence := sc.2
    evidence_chunk_id := em.best_match_chunk_id
    evidence_snippet := if em.supporting_chunk_content ≠ "" then
        em.supporting_chunk_content.take 200 else ""
    similarity_score := em.best_match_similarity
    keywords_found := em.keywords_found }

/-- The summary dict returned by `verify_all_claims`. -/
structure VerificationResult where
  verified_claims : List VerifiedClaim
  coVe_confidence : ℚ
  supported_count : Nat
  partially_supported_count : Nat
  unresolved_count : Nat
  contradicted_count : Nat
  avg_supported_confidence : ℚ
  support_ratio : ℚ
  deriving DecidableEq, Repr

/-- Embedding of `verify_all_claims` from `verifier.py` (lines 131-200): verify every
mapping and aggregate statistics. -/
def verify_all_claims (evidence_mappings : List EvidenceMapping)
    (thresholds : Thresholds) : VerificationResult :=
  let verified_claims := evidence_mappings.map (verify_claim · thresholds)
  let supported := verified_claims.filter (fun c => c.status == .SUPPORTED)
  let partially := verified_claims.filter (fun c => c.status == .PARTIALLY_SUPPORTED)
  let unresolved := verified_claims.filter (fun c => c.status == .UNRESOLVED)
  let contradicted := verified_claims.filter (fun c => c.status == .CONTRADICTED)
  let avg_supported_conf : ℚ :=
    if supported ≠ [] then
      (supported.map (·.confidence)).sum / supported.length
    else 0
  let support_ratio : ℚ :=
    if verified_claims ≠ [] then
      (supported.length : ℚ) / verified_claims.length
    else 0
  let coVe_confidence := avg_supported_conf * support_ratio
  { verified_claims := verified_claims
    coVe_confidence := coVe_confidence
    supported_count := supported.length
    partially_supported_count := partially.length
    unresolved_count := unresolved.length
    contradicted_count := contradicted.length
    avg_supported_confidence := avg_supported_conf
    support_ratio := support_ratio }

/-- Embedding of `get_verification_summary` from `verifier.py` (lines 203-230). -/
def get_verification_summary (vr : VerificationResult) : String :=
  let parts : List String :=
    (if vr.supported_count > 0 then [toString vr.supported_count ++ " supported"] else []) ++
    (if vr.partially_supported_count > 0 then
        [toString vr.partially_supported_count ++ " partial"] else []) ++
    (if vr.unresolved_count > 0 then [toString vr.unresolved_count ++ " unresolved"] else []) ++
    (if vr.contradicted_count > 0 then
        [toString vr.contradicted_count ++ " contradicted"] else [])
  if parts ≠ [] then String.intercalate ", " parts else "no claims"

/-! ## retrieval/rrf_fusion.py -/

/-- A retrieval result row (a Python dict flowing through
`rrf_fusion` / `mmr_select`).  `none` in an `Option` field means the key is
absent from the dict. -/
structure Chunk where
  chunk_id : Option Int := none
  content : String := ""
  bm25_score : Option ℚ := none
  vector_score : Option ℚ := none
  embedding : Option (List ℚ) := none
  rrf_score : Option ℚ := none
  found_in_methods : List String := []
  in_both_methods : Bool := false
  mmr_score : Option ℚ := none
  deriving DecidableEq, Repr

/-- The fusion state: `rrf_scores` and `chunk_data` of `rrf_fusion` are two
dicts updated in lockstep on exactly the same keys, so they are modelled as
one insertion-ordered association list `(chunk_id, rrf_score, chunk)`. -/
abbrev FusionState := List (Int × ℚ × Chunk)

/-- Dict merge performed when a chunk id is seen again: the bm25 pass
re-stores the bm25 score, the vector pass stores the vector score and, when
the incoming row has an embedding, the embedding
(`rrf_fusion`, lines 81-83 and 98-104). -/
def mergeChunk (isVector : Bool) (stored result : Chunk) : Chunk :=
  if isVector then
    let stored := { stored with vector_score := result.vector_score }
    match result.embedding with
    | some e => { stored with embedding := some e }
    | none => stored
  else
    { stored with bm25_score := result.bm25_score }

/-- Add `add` to the stored rrf score of key `cid` and merge the chunk data
(the dict-update case of one loop iteration of `rrf_fusion`). -/
def updEntry (isVector : Bool) (result : Chunk) (cid : Int) (add : ℚ) :
    FusionState → FusionState
  | [] => []
  | e :: es =>
    if e.1 = cid then (e.1, e.2.1 + add, mergeChunk isVector e.2.2 result) :: es
    else e :: updEntry isVector result cid add es

/-- One iteration of a result loop of `rrf_fusion` (lines 69-104): skip rows
without a chunk id, accumulate `1/(k + rank)`, store or merge chunk data. -/
def rrfStep (k : ℚ) (isVector : Bool) (rank : Nat) (result : Chunk)
    (st : FusionState) : FusionState :=
  match result.chunk_id with
  | none => st
  | some cid =>
    let add : ℚ := 1 / (k + rank)
    if st.any (fun e => e.1 == cid) then updEntry isVector result cid add st
    else st ++ [(cid, add, result)]

/-- A whole result loop of `rrf_fusion`: `enumerate(results, start=1)` is
the explicit `rank` counter. -/
def rrfProcess (k : ℚ) (isVector : Bool) : List Chunk → Nat → FusionState → FusionState
  | [], _, st => st
  | r :: rs, rank, st => rrfProcess k isVector rs (rank + 1) (rrfStep k isVector rank r st)

/-- Stable insertion (descending by `key`) used to model Python's stable
`list.sort(key=..., reverse=True)`. -/
def insertByKeyDesc {α : Type} (key : α → ℚ) (x : α) : List α → List α
  | [] => [x]
  | y :: l => if key x < key y then y :: insertByKeyDesc key x l else x :: y :: l

/-- Stable sort, descending by `key`: the semantics of CPython's stable
`sort(key=..., reverse=True)`. -/
def sortByKeyDesc {α : Type} (key : α → ℚ) : List α → List α
  | [] => []
  | x :: xs => insertByKeyDesc key x (sortByKeyDesc key xs)

/-- One iteration of step 2 of `rrf_fusion` (lines 109-123): attach the
rrf score and the method provenance to a stored chunk. -/
def finalizeEntry (e : Int × ℚ × Chunk) : Chunk :=
  let chunk := e.2.2
  let methods := (if chunk.bm25_score.isSome then ["bm25"] else []) ++
    (if chunk.vector_score.isSome then ["vector"] else [])
  { chunk with
      rrf_score := some e.2.1
      found_in_methods := methods
      in_both_methods := methods.length == 2 }

/-- Step 2 of `rrf_fusion` (lines 106-123): finalize every stored chunk,
in dict insertion order. -/
def rrfFinalize (st : FusionState) : List Chunk :=
  st.map finalizeEntry

/-- The fused list of `rrf_fusion` before the final sort. -/
def rrfFused (bm25_results vector_results : List Chunk) (k : ℚ) : List Chunk :=
  rrfFinalize (rrfProcess k true vector_results 1 (rrfProcess k false bm25_results 1 []))

/-- Embedding of `rrf_fusion` from `rrf_fusion.py` (lines 27-128).  Every fused row has
`rrf_score = some _`, so the sort key `getD 0` is never the default. -/
def rrf_fusion (bm25_results vector_results : List Chunk) (k : ℚ) : List Chunk :=
  sortByKeyDesc (fun c => c.rrf_score.getD 0) (rrfFused bm25_results vector_results k)

/-- The 1-indexed rank of a chunk id in a result list (position of its first
occurrence), as used by the RRF accumulation. -/
def rankOf (l : List Chunk) (cid : Int) : Option Nat :=
  match l with
  | [] => none
  | r :: rs => if r.chunk_id = some cid then some 1 else (rankOf rs cid).map (· + 1)

/-- The RRF contribution of one ranked list to a candidate id:
`1/(k + rank)` if the list contains the id, else `0`. -/
def contrib (k : ℚ) (l : List Chunk) (cid : Int) : ℚ :=
  match rankOf l cid with
  | some r => 1 / (k + r)
  | none => 0

/-- Sum of `1/(k + rank)` over all occurrences of `cid` in a result list,
ranks counted from `rank` (the exact quantity the Python loop adds). -/
def rrfSum (k : ℚ) (cid : Int) : List Chunk → Nat → ℚ
  | [], _ => 0
  | r :: rs, rank =>
    (if r.chunk_id == some cid then 1 / (k + rank) else 0) + rrfSum k cid rs (rank + 1)

/-- Lookup `rrf_scores.get(cid, 0.0)`: stored score of a key, `0` when absent. -/
def lookupScore (st : FusionState) (cid : Int) : ℚ :=
  match st.find? (fun e => e.1 == cid) with
  | some e => e.2.1
  | none => 0

/-- Stored chunk data of a key. -/
def lookupChunk (st : FusionState) (cid : Int) : Option Chunk :=
  (st.find? (fun e => e.1 == cid)).map (·.2.2)

/-- Insertion order of the fusion dicts: ids in order of first appearance
across the concatenated input lists (rows without an id skipped). -/
def collectIds (acc : List Int) : List Chunk → List Int
  | [] => acc
  | r :: rs =>
    match r.chunk_id with
    | none => collectIds acc rs
    | some cid => collectIds (if cid ∈ acc then acc else acc ++ [cid]) rs

/-! ## retrieval/mmr_diversity.py

`cosine_similarity` there computes `dot/(‖v₁‖‖v₂‖)` with floating-point
square roots, which has no exact rational form; `mmr_select` is therefore
parametrised by the similarity function `cosSim`.  All verified properties
hold for every `cosSim`. -/

/-- Relevance of a candidate in the MMR loop (`mmr_select`, lines 127-131):
`rrf_score`, falling back to `vector_score`, then `bm25_score`, then `0`. -/
def mmrRelevance (c : Chunk) : ℚ :=
  match c.rrf_score with
  | some r => r
  | none =>
    match c.vector_score with
    | some v => v
    | none => c.bm25_score.getD 0

/-- The `max_similarity` of a candidate embedding against the already-selected
chunks (`mmr_select`, lines 139-147), starting from `0.0`. -/
def mmrMaxSim (cosSim : List ℚ → List ℚ → ℚ) (ce : List ℚ) (selected : List Chunk) : ℚ :=
  selected.foldl
    (fun m s =>
      match s.embedding with
      | some se => max m (cosSim ce se)
      | none => m) 0

/-- The inner `for i, candidate in enumerate(remaining)` scan of
`mmr_select` (lines 125-154): returns the best MMR score seen
(`none` models the `-inf` initialisation) and the argmax index
(initialised to `0`). -/
def mmrScan (cosSim : List ℚ → List ℚ → ℚ) (lam : ℚ) (selected : List Chunk) :
    List Chunk → Nat → Option ℚ → Nat → Option ℚ × Nat
  | [], _, best, bidx => (best, bidx)
  | c :: cs, i, best, bidx =>
    match c.embedding with
    | none => mmrScan cosSim lam selected cs (i + 1) best bidx
    | some ce =>
      let mmr := lam * mmrRelevance c - (1 - lam) * mmrMaxSim cosSim ce selected
      let better := match best with
        | none => true
        | some b => decide (b < mmr)
      if better then mmrScan cosSim lam selected cs (i + 1) (some mmr) i
      else mmrScan cosSim lam selected cs (i + 1) best bidx

/-- Model of `remaining.pop(i)`: the popped element and the rest. -/
def popAt (l : List Chunk) (i : Nat) : Option (Chunk × List Chunk) :=
  match l.get? i with
  | some x => some (x, l.take i ++ l.drop (i + 1))
  | none => none

/-- The `while len(selected) < n and remaining` loop of `mmr_select`
(lines 121-160).  `fuel` is the loop-iteration bound: every iteration pops
exactly one element of `remaining`, so `fuel = remaining.length` at the
call site makes this the exact while-loop semantics.  The `none` branch of
`popAt` mirrors the `if best_idx < len(remaining)` guard and is
unreachable (`best_idx` starts at `0` and `remaining` is nonempty). -/
def mmrLoop (cosSim : List ℚ → List ℚ → ℚ) (lam : ℚ) (n : Nat) :
    Nat → List Chunk → List Chunk → List Chunk
  | 0, selected, _ => selected
  | fuel + 1, selected, remaining =>
    if selected.length < n ∧ remaining ≠ [] then
      match popAt remaining (mmrScan cosSim lam selected remaining 0 none 0).2 with
      | some (c, rem) =>
          mmrLoop cosSim lam n fuel
            (selected ++
              [{ c with mmr_score := (mmrScan cosSim lam selected remaining 0 none 0).1 }])
            rem
      | none => selected
    else selected

/-- Embedding of `mmr_select` from `mmr_diversity.py` (lines 50-162), parametrised by
the cosine-similarity function. -/
def mmr_select (cosSim : List ℚ → List ℚ → ℚ) (candidates : List Chunk)
    (n : Int) (lambda_param : ℚ) : List Chunk :=
  if candidates = [] then []
  else if n ≤ 0 then []
  else if (candidates.length : Int) ≤ n then candidates
  else
    let candidates_with_embeddings := candidates.filter (fun c => c.embedding.isSome)
    if candidates_with_embeddings = [] then candidates.take n.toNat
    else
      match candidates_with_embeddings with
      | [] => []
      | c0 :: rest => mmrLoop cosSim lambda_param n.toNat rest.length [c0] rest

/-! ## retrieval/mq_expander.py -/

/-- A query variation dict (`{"query", "weight", "variation_type"}`). -/
structure QueryVariant where
  query : String
  weight : ℚ
  variation_type : String := "general"
  expansion_error : Option String := none
  deriving DecidableEq, Repr

/-- One element of the JSON array parsed from the LLM response.
`query = none` models an element that is not a dict or lacks the
`"query"` key (skipped by validation); `weight`/`variation_type` are
`none` when the key is missing. -/
structure RawVariant where
  query : Option String := none
  weight : Option ℚ := none
  variation_type : Option String := none
  deriving DecidableEq, Repr

/-- The validation loop of `expand_query` (lines 122-131): keep dict items
with a `"query"` key, defaulting `weight` to `1.0 - i*0.1` (`i` the index
in the parsed array) and `variation_type` to `"general"`. -/
def validateItems (raw : List RawVariant) : List QueryVariant :=
  raw.enum.filterMap fun p =>
    match p.2.query with
    | none => none
    | some q =>
      some { query := q
             weight := p.2.weight.getD (1 - p.1 * (1/10))
             variation_type := p.2.variation_type.getD "general" }

/-- Python `text.lower()` as a character list (strings are handled as `List Char`
throughout, which matches Python string semantics for the ASCII content
involved and keeps every operation computable). -/
def lowerChars (s : String) : List Char :=
  s.toList.map Char.toLower

/-- Python `str.split()` on a character list: split on whitespace runs,
dropping empty pieces.  `acc` holds the (reversed) current token. -/
def pyTokens : List Char → List Char → List (List Char)
  | acc, [] => if acc = [] then [] else [acc.reverse]
  | acc, c :: cs =>
    if c.isWhitespace then
      (if acc = [] then pyTokens [] cs else acc.reverse :: pyTokens [] cs)
    else pyTokens (c :: acc) cs

/-- Python `set(text.lower().split())` as a duplicate-free list of tokens. -/
def wordSet (s : String) : List (List Char) :=
  (pyTokens [] (lowerChars s)).dedup

/-- Token-set overlap similarity `|A∩B| / |A∪B|` used by both
`_deduplicate_queries` and `validate_query_quality` (`0` when both sets
are empty, matching the `total > 0` guards). -/
def overlapSim (a b : String) : ℚ :=
  let aw := wordSet a
  let bw := wordSet b
  let overlap := (aw.filter (fun w => bw.contains w)).length
  let total := aw.length + (bw.filter (fun w => !aw.contains w)).length
  if total > 0 then (overlap : ℚ) / total else 0

/-- The accumulator loop of `_deduplicate_queries` (lines 183-209): keep a
variant unless its overlap with an already-kept one exceeds `0.85`. -/
def dedupGo (acc : List QueryVariant) : List QueryVariant → List QueryVariant
  | [] => acc
  | q :: qs =>
    let is_duplicate :=
      acc.any (fun existing => decide (overlapSim q.query existing.query > 85/100))
    dedupGo (if is_duplicate then acc else acc ++ [q]) qs

/-- Embedding of `_deduplicate_queries` from `mq_expander.py` (lines 167-211): lists of
at most two variants are returned unchanged. -/
def deduplicateQueries (queries : List QueryVariant) : List QueryVariant :=
  if queries.length ≤ 2 then queries else dedupGo [] queries

/-- Embedding of `validate_query_quality` from `mq_expander.py` (lines 214-263): drop
expansions with ≥ 0.9 overlap with the original query; if everything is
dropped, fall back to the original query alone. -/
def validate_query_quality (original : String) (expanded : List QueryVariant) :
    List QueryVariant :=
  let validated := expanded.filter
    (fun q => decide (overlapSim original q.query < 9/10))
  if validated = [] then
    [{ query := original, weight := 1, variation_type := "original" }]
  else validated

/-- Embedding of `expand_query` from `mq_expander.py` (lines 40-164).  The generative
call plus JSON parsing and the list-shape check are modelled by the
`llm` parameter: `.error e` is any exception on that path (fallback to the
original query tagged with the error), `.ok raw` is the parsed array. -/
def expand_query (query : String) (num_queries : Nat)
    (llm : Except String (List RawVariant)) : List QueryVariant :=
  -- num_queries is clamped to [2,5] and used only inside the prompt text
  let _ := max 2 (min num_queries 5)
  match llm with
  | .error e =>
    [{ query := query, weight := 1, variation_type := "original",
       expansion_error := some e }]
  | .ok raw =>
    let validated := validateItems raw
    let deduplicated := deduplicateQueries validated
    let deduplicated := validate_query_quality query deduplicated
    if deduplicated.length < 2 then
      deduplicated ++ [{ query := query, weight := 1, variation_type := "original" }]
    else deduplicated

/-! ## verification/evidence_mapper.py and verification/cove.py -/

/-- The stopword set of `map_claim_to_evidence` (lines 127-131). -/
def stopwords : List String :=
  ["is", "a", "an", "the", "for", "and", "or", "in", "on", "at", "to",
   "of", "by", "with", "from", "that", "this", "it", "be", "are", "was",
   "been", "has", "have", "had", "do", "does", "did", "but", "if", "as"]

/-- Substring test, Python `needle in hay` on strings. -/
def substrIn (needle hay : List Char) : Bool :=
  hay.tails.any (fun t => needle.isPrefixOf t)

/-- Embedding of `map_claim_to_evidence` from `evidence_mapper.py` (lines 62-145).
`embed` models the `client.embeddings.create` call (`.error` = the call
raised); `cosSim` models the floating-point cosine, whose result the
source clamps into `[0,1]` (line 59).  An exception in `embed` propagates:
nothing in this function catches it. -/
def map_claim_to_evidence (embed : String → Except String (List ℚ))
    (cosSim : List ℚ → List ℚ → ℚ) (claim : String) (chunks : List Chunk) :
    Except String EvidenceMapping :=
  match embed claim with
  | .error e => .error e
  | .ok claim_embedding =>
    let best := chunks.enum.foldl
      (fun (acc : ℚ × Option Int × String × Int) p =>
        match p.2.embedding with
        | none => acc
        | some ce =>
          let similarity := max 0 (min 1 (cosSim claim_embedding ce))
          if similarity > acc.1 then (similarity, p.2.chunk_id, p.2.content, (p.1 : Int))
          else acc)
      (0, none, "", -1)
    let chunk_lower := lowerChars best.2.2.1
    let claim_keywords := (wordSet claim).filter
      (fun w => !stopwords.any (fun sw => sw.toList == w))
    let keywords_found := claim_keywords.any
      (fun kw => kw.length > 2 && substrIn kw chunk_lower)
    .ok { claim := claim
          best_match_chunk_id := best.2.1
          best_match_chunk_index := best.2.2.2
          best_match_similarity := best.1
          supporting_chunk_content := best.2.2.1.take 500
          keywords_found := keywords_found
          claim_keywords := claim_keywords.map (fun w => String.mk w) }

/-- An extracted claim object (from `claim_extractor.py`); `none` fields
model missing dict keys, defaulted by `map_all_claims_to_evidence`. -/
structure ClaimObj where
  claim : String := ""
  claim_id : Option String := none
  category : Option String := none
  deriving DecidableEq, Repr

/-- The embedding back-fill of `map_all_claims_to_evidence`
(lines 169-191): `db` models the `chunks` table
(`id → embedding`, `none` for missing/NULL).  Note the Python truthiness
test `if c.get("chunk_id")` skips id `0`. -/
def enrichChunks (db : Int → Option (List ℚ)) (chunks : List Chunk) : List Chunk :=
  chunks.map fun c =>
    match c.chunk_id with
    | some cid =>
      if cid ≠ 0 ∧ (db cid).isSome ∧ c.embedding = none then
        { c with embedding := db cid }
      else c
    | none => c

/-- The mapping loop of `map_all_claims_to_evidence` (lines 194-213):
`i` is `enumerate(claims, 1)`; empty claim texts are skipped; an exception
from `map_claim_to_evidence` aborts the loop and propagates. -/
def mapAllGo (embed : String → Except String (List ℚ))
    (cosSim : List ℚ → List ℚ → ℚ) (chunks : List Chunk) :
    List ClaimObj → Nat → List EvidenceMapping → Except String (List EvidenceMapping)
  | [], _, acc => .ok acc
  | co :: cos, i, acc =>
    if co.claim = "" then mapAllGo embed cosSim chunks cos (i + 1) acc
    else
      match map_claim_to_evidence embed cosSim co.claim chunks with
      | .error e => .error e
      | .ok m =>
        mapAllGo embed cosSim chunks cos (i + 1)
          (acc ++ [{ m with
              claim_id := co.claim_id.getD ("claim_" ++ toString i)
              category := co.category.getD "general" }])

/-- Embedding of `map_all_claims_to_evidence` from `evidence_mapper.py` (lines 148-217). -/
def map_all_claims_to_evidence (embed : String → Except String (List ℚ))
    (cosSim : List ℚ → List ℚ → ℚ) (db : Int → Option (List ℚ))
    (claims : List ClaimObj) (chunks : List Chunk) :
    Except String (List EvidenceMapping) :=
  mapAllGo embed cosSim (enrichChunks db chunks) claims 1 []

/-- The dict returned by `verify_response` in `cove.py`.
`support_ratio = none` records that the empty-claims branch
(lines 136-147) returns a dict without the `support_ratio` key. -/
structure CoVeResult where
  draft_response : String
  verified_claims : List VerifiedClaim
  coVe_confidence : ℚ
  supported_count : Nat
  partially_supported_count : Nat
  unresolved_count : Nat
  contradicted_count : Nat
  verification_summary : String
  claims_extracted : Nat
  avg_supported_confidence : ℚ
  support_ratio : Option ℚ := none
  deriving DecidableEq, Repr

/-- Embedding of `verify_response` from `cove.py` (lines 86-183).  The
`extract_claims` LLM call is modelled by its result, the `claims`
parameter.  `.error` models an uncaught exception escaping the call:
`verify_response` has no exception handler, so a failure inside
`map_all_claims_to_evidence` propagates to the caller. -/
def verify_response (embed : String → Except String (List ℚ))
    (cosSim : List ℚ → List ℚ → ℚ) (db : Int → Option (List ℚ))
    (draft_response : String) (retrieved_chunks : List Chunk)
    (claims : List ClaimObj) (thresholds : Thresholds) :
    Except String CoVeResult :=
  if claims = [] then
    .ok { draft_response := draft_response
          verified_claims := []
          coVe_confidence := 1
          supported_count := 0
          partially_supported_count := 0
          unresolved_count := 0
          contradicted_count := 0
          verification_summary := "No claims to verify"
          claims_extracted := 0
          avg_supported_confidence := 0
          support_ratio := none }
  else
    match map_all_claims_to_evidence embed cosSim db claims retrieved_chunks with
    | .error e => .error e
    | .ok evidence_mappings =>
      let verification := verify_all_claims evidence_mappings thresholds
      .ok { draft_response := draft_response
            verified_claims := verification.verified_claims
            coVe_confidence := verification.coVe_confidence
            supported_count := verification.supported_count
            partially_supported_count := verification.partially_supported_count
            unresolved_count := verification.unresolved_count
            contradicted_count := verification.contradicted_count
            verification_summary := get_verification_summary verification
            claims_extracted := claims.length
            avg_supported_confidence := verification.avg_supported_confidence
            support_ratio := some verification.support_ratio }

/-- The CoVe fields merged into the pipeline result by the caller
(`rag_executor.py`, lines 404-447): the `try/except` around
`verify_rag_response`. -/
structure CoveSection where
  cove_enabled : Bool
  cove_error : Option String := none
  result : Option CoVeResult := none
  deriving DecidableEq, Repr

/-- The `try/except Exception as cove_error` wrapper in
`rag_executor.py` (lines 404-447): a successful verification is merged
into the result; any exception is caught and the pipeline falls back to
the non-verified response. -/
def coveSection (verification : Except String CoVeResult) : CoveSection :=
  match verification with
  | .ok r => { cove_enabled := true, result := some r }
  | .error e => { cove_enabled := false, cove_error := some e }

/-- The state built by a fusion pass over rows whose ids are fresh:
each row is appended with score `1/(k + rank)`. -/
def freshEntries (k : ℚ) : List Chunk → Nat → FusionState
  | [], _ => []
  | r :: rs, rank =>
    match r.chunk_id with
    | some cid => (cid, 1/(k + rank), r) :: freshEntries k rs (rank + 1)
    | none => freshEntries k rs (rank + 1)

/-! ## Theorems -/

/-! ### Stable sort lemmas -/

theorem insertByKeyDesc_perm {α : Type} (key : α → ℚ) (x : α) (l : List α) :
    List.Perm (insertByKeyDesc key x l) (x :: l) := by
  induction l with
  | nil => simp [insertByKeyDesc]
  | cons y l ih =>
    simp only [insertByKeyDesc]
    split_ifs with h
    · exact (ih.cons y).trans (List.Perm.swap x y l)
    · rfl

theorem sortByKeyDesc_perm {α : Type} (key : α → ℚ) (l : List α) :
    List.Perm (sortByKeyDesc key l) l := by
  induction l with
  | nil => rfl
  | cons x xs ih =>
    simp only [sortByKeyDesc]
    exact (insertByKeyDesc_perm key x (sortByKeyDesc key xs)).trans (ih.cons x)

theorem mem_insertByKeyDesc {α : Type} {key : α → ℚ} {x z : α} {l : List α} :
    z ∈ insertByKeyDesc key x l ↔ z = x ∨ z ∈ l := by
  rw [(insertByKeyDesc_perm key x l).mem_iff, List.mem_cons]

theorem pairwise_insertByKeyDesc {α : Type} (key : α → ℚ) (x : α) (l : List α)
    (h : l.Pairwise (fun a b => key b ≤ key a)) :
    (insertByKeyDesc key x l).Pairwise (fun a b => key b ≤ key a) := by
  induction l with
  | nil => simp [insertByKeyDesc]
  | cons y l ih =>
    rw [List.pairwise_cons] at h
    obtain ⟨hy, hl⟩ := h
    simp only [insertByKeyDesc]
    split_ifs with hxy
    · rw [List.pairwise_cons]
      refine ⟨?_, ih hl⟩
      intro z hz
      rcases mem_insertByKeyDesc.mp hz with hz | hz
      · subst hz; exact le_of_lt hxy
      · exact hy z hz
    · rw [List.pairwise_cons]
      refine ⟨?_, List.pairwise_cons.mpr ⟨hy, hl⟩⟩
      intro z hz
      rcases List.mem_cons.mp hz with hz | hz
      · subst hz; exact not_lt.mp hxy
      · exact le_trans (hy z hz) (not_lt.mp hxy)

theorem pairwise_sortByKeyDesc {α : Type} (key : α → ℚ) (l : List α) :
    (sortByKeyDesc key l).Pairwise (fun a b => key b ≤ key a) := by
  induction l with
  | nil => simp [sortByKeyDesc]
  | cons x xs ih => exact pairwise_insertByKeyDesc key x _ ih

theorem filter_insertByKeyDesc {α : Type} (key : α → ℚ) (v : ℚ) (x : α) (l : List α) :
    (insertByKeyDesc key x l).filter (fun a => decide (key a = v)) =
      if key x = v then x :: l.filter (fun a => decide (key a = v))
      else l.filter (fun a => decide (key a = v)) := by
  induction l with
  | nil =>
    simp only [insertByKeyDesc]
    by_cases h : key x = v
    · simp [List.filter_cons, h]
    · simp [List.filter_cons, h]
  | cons y l ih =>
    simp only [insertByKeyDesc]
    by_cases hxy : key x < key y
    · rw [if_pos hxy]
      by_cases hy : key y = v
      · have hx : ¬ key x = v := by
          intro h2
          rw [h2, ← hy] at hxy
          exact lt_irrefl _ hxy
        simp [List.filter_cons, hy, hx, ih]
      · simp [List.filter_cons, hy, ih]
    · rw [if_neg hxy]
      by_cases hx : key x = v
      · simp [List.filter_cons, hx]
      · simp [List.filter_cons, hx]

theorem filter_sortByKeyDesc {α : Type} (key : α → ℚ) (v : ℚ) (l : List α) :
    (sortByKeyDesc key l).filter (fun a => decide (key a = v)) =
      l.filter (fun a => decide (key a = v)) := by
  induction l with
  | nil => rfl
  | cons x xs ih =>
    simp only [sortByKeyDesc, filter_insertByKeyDesc, ih, List.filter_cons]
    split_ifs with h <;> simp_all

theorem insertByKeyDesc_of_le {α : Type} (key : α → ℚ) (x : α) (l : List α)
    (h : ∀ z ∈ l, key z ≤ key x) : insertByKeyDesc key x l = x :: l := by
  cases l with
  | nil => rfl
  | cons y l =>
    simp only [insertByKeyDesc]
    rw [if_neg (not_lt.mpr (h y (List.mem_cons_self y l)))]

theorem sortByKeyDesc_eq_self {α : Type} (key : α → ℚ) (l : List α)
    (h : l.Pairwise (fun a b => key b ≤ key a)) : sortByKeyDesc key l = l := by
  induction l with
  | nil => rfl
  | cons x xs ih =>
    rw [List.pairwise_cons] at h
    simp only [sortByKeyDesc, ih h.2]
    exact insertByKeyDesc_of_le key x xs h.1

/-- C1: for every evidence mapping with best-match similarity `s` and
keyword flag `kw`, classification under the default thresholds
(SUPPORTED = 0.65, PARTIAL = 0.50, WEAK = 0.40) returns exactly:
SUPPORTED with confidence `s` when `s ≥ 0.65` and `kw`;
PARTIALLY_SUPPORTED with confidence `s·0.85` when `s ≥ 0.65` and `¬kw`;
PARTIALLY_SUPPORTED with confidence `s` when `0.50 ≤ s < 0.65` and `kw`;
UNRESOLVED with confidence `s·0.7` when `0.50 ≤ s < 0.65` and `¬kw`;
UNRESOLVED with confidence `s` in all remaining cases; in particular
`s = 0.65` with `kw` gives SUPPORTED and `s = 0.649` with `kw` gives
PARTIALLY_SUPPORTED. -/
theorem verify_claim_default_threshold_classification (em : EvidenceMapping) :
    (65/100 ≤ em.best_match_similarity → em.keywords_found = true →
      (verify_claim em THRESHOLDS).status = .SUPPORTED ∧
      (verify_claim em THRESHOLDS).confidence = em.best_match_similarity) ∧
    (65/100 ≤ em.best_match_similarity → em.keywords_found = false →
      (verify_claim em THRESHOLDS).status = .PARTIALLY_SUPPORTED ∧
      (verify_claim em THRESHOLDS).confidence = em.best_match_similarity * (85/100)) ∧
    (50/100 ≤ em.best_match_similarity → em.best_match_similarity < 65/100 →
      em.keywords_found = true →
      (verify_claim em THRESHOLDS).status = .PARTIALLY_SUPPORTED ∧
      (verify_claim em THRESHOLDS).confidence = em.best_match_similarity) ∧
    (50/100 ≤ em.best_match_similarity → em.best_match_similarity < 65/100 →
      em.keywords_found = false →
      (verify_claim em THRESHOLDS).status = .UNRESOLVED ∧
      (verify_claim em THRESHOLDS).confidence = em.best_match_similarity * (7/10)) ∧
    (em.best_match_similarity < 50/100 →
      (verify_claim em THRESHOLDS).status = .UNRESOLVED ∧
      (verify_claim em THRESHOLDS).confidence = em.best_match_similarity) ∧
    (verify_claim { best_match_similarity := 65/100, keywords_found := true }
      THRESHOLDS).status = .SUPPORTED ∧
    (verify_claim { best_match_similarity := 649/1000, keywords_found := true }
      THRESHOLDS).status = .PARTIALLY_SUPPORTED := by
  simp only [verify_claim]
  unfold classify_similarity THRESHOLDS
  refine ⟨?_, ?_, ?_, ?_, ?_, ?_, ?_⟩
  · intro h1 h2
    split_ifs <;> simp_all <;> linarith
  · intro h1 h2
    split_ifs <;> simp_all <;> linarith
  · intro h1 h2 h3
    split_ifs <;> simp_all <;> linarith
  · intro h1 h2 h3
    split_ifs <;> simp_all <;> linarith
  · intro h1
    split_ifs <;> simp_all <;> linarith
  · norm_num
  · norm_num

/-- Closed witness for the C1 theorem at `s = 0.6`, `kw = false`. -/
theorem verify_claim_default_threshold_classification_witness :
    (verify_claim { best_match_similarity := 6/10, keywords_found := false }
      THRESHOLDS).status = ClaimStatus.UNRESOLVED ∧
    (verify_claim { best_match_similarity := 6/10, keywords_found := false }
      THRESHOLDS).confidence = (6/10) * (7/10) :=
  (verify_claim_default_threshold_classification
    { best_match_similarity := 6/10, keywords_found := false }).2.2.2.1
    (by norm_num) (by norm_num) rfl

/-- C10: with an empty extracted-claim list, `verify_response` reports
`coVe_confidence = 1.0` with all status counts zero, while aggregating an
empty mapping list through `verify_all_claims` yields `coVe_confidence =
0.0` — the two public paths disagree at zero claims. -/
theorem verify_response_empty_claims_confidence_disagreement
    (embed : String → Except String (List ℚ)) (cosSim : List ℚ → List ℚ → ℚ)
    (db : Int → Option (List ℚ)) (draft : String) (chunks : List Chunk)
    (th : Thresholds) :
    verify_response embed cosSim db draft chunks [] th =
      .ok { draft_response := draft
            verified_claims := []
            coVe_confidence := 1
            supported_count := 0
            partially_supported_count := 0
            unresolved_count := 0
            contradicted_count := 0
            verification_summary := "No claims to verify"
            claims_extracted := 0
            avg_supported_confidence := 0
            support_ratio := none } ∧
    (verify_all_claims [] th).coVe_confidence = 0 ∧ (1 : ℚ) ≠ 0 := by
  refine ⟨by simp [verify_response], ?_, one_ne_zero⟩
  simp [verify_all_claims]

/-- C6: diversity selection returns `[]` whenever `n ≤ 0`, and returns the
candidate list unchanged whenever it has at most `n` elements; in
particular, selecting `n = 10` out of `5` candidates returns exactly those
5 in input order. -/
theorem mmr_select_small_input_passthrough (cosSim : List ℚ → List ℚ → ℚ)
    (candidates : List Chunk) (n : Int) (lam : ℚ) :
    (n ≤ 0 → mmr_select cosSim candidates n lam = []) ∧
    ((candidates.length : Int) ≤ n → mmr_select cosSim candidates n lam = candidates) ∧
    mmr_select cosSim
      [{ chunk_id := some 1 }, { chunk_id := some 2 }, { chunk_id := some 3 },
       { chunk_id := some 4 }, { chunk_id := some 5 }] 10 lam =
      [{ chunk_id := some 1 }, { chunk_id := some 2 }, { chunk_id := some 3 },
       { chunk_id := some 4 }, { chunk_id := some 5 }] := by
  refine ⟨?_, ?_, ?_⟩
  · intro hn
    unfold mmr_select
    split_ifs with h1 h2 h3 <;> first | rfl | omega
  · intro hlen
    unfold mmr_select
    split_ifs with h1 h2 h3 <;>
      first
        | rfl
        | (subst h1; rfl)
        | (exfalso
           have : candidates.length = 0 := by omega
           exact h1 (List.length_eq_zero.mp this))
        | omega
  · unfold mmr_select
    norm_num

/-- Closed witness for the C6 theorem: `n = -3` yields `[]` and a
two-element list fits under `n = 7`. -/
theorem mmr_select_small_input_passthrough_witness :
    mmr_select (fun _ _ => 0) [{ chunk_id := some 1 }] (-3) (7/10) = [] ∧
    mmr_select (fun _ _ => 0) [{ chunk_id := some 1 }, { chunk_id := some 2 }] 7 (7/10) =
      [{ chunk_id := some 1 }, { chunk_id := some 2 }] :=
  ⟨(mmr_select_small_input_passthrough (fun _ _ => 0) [{ chunk_id := some 1 }]
      (-3) (7/10)).1 (by norm_num),
   (mmr_select_small_input_passthrough (fun _ _ => 0)
      [{ chunk_id := some 1 }, { chunk_id := some 2 }] 7 (7/10)).2.1 (by norm_num)⟩

/-! ### Fusion state lemmas -/

theorem lookupScore_cons (e : Int × ℚ × Chunk) (es : FusionState) (cid : Int) :
    lookupScore (e :: es) cid = if e.1 = cid then e.2.1 else lookupScore es cid := by
  by_cases h : e.1 = cid <;> simp [lookupScore, List.find?_cons, h]

theorem lookupChunk_cons (e : Int × ℚ × Chunk) (es : FusionState) (cid : Int) :
    lookupChunk (e :: es) cid = if e.1 = cid then some e.2.2 else lookupChunk es cid := by
  by_cases h : e.1 = cid <;> simp [lookupChunk, List.find?_cons, h]

theorem any_fst_iff (st : FusionState) (cid : Int) :
    st.any (fun e => e.1 == cid) = true ↔ cid ∈ st.map (·.1) := by
  simp only [List.any_eq_true, beq_iff_eq, List.mem_map]

theorem lookupScore_eq_zero_of_not_any (st : FusionState) (cid : Int)
    (h : st.any (fun e => e.1 == cid) = false) : lookupScore st cid = 0 := by
  induction st with
  | nil => rfl
  | cons e es ih =>
    simp only [List.any_cons, Bool.or_eq_false_iff] at h
    rw [lookupScore_cons, if_neg (by simpa using h.1)]
    exact ih h.2

theorem updEntry_map_fst (b : Bool) (r : Chunk) (cid : Int) (add : ℚ) (st : FusionState) :
    (updEntry b r cid add st).map (·.1) = st.map (·.1) := by
  induction st with
  | nil => rfl
  | cons e es ih =>
    simp only [updEntry]
    split_ifs with h <;> simp [ih]

theorem updEntry_lookupScore_self (b : Bool) (r : Chunk) (cid : Int) (add : ℚ)
    (st : FusionState) (h : st.any (fun e => e.1 == cid) = true) :
    lookupScore (updEntry b r cid add st) cid = lookupScore st cid + add := by
  induction st with
  | nil => simp at h
  | cons e es ih =>
    simp only [updEntry]
    split_ifs with he
    · rw [lookupScore_cons, lookupScore_cons, if_pos he, if_pos he]
    · rw [lookupScore_cons, lookupScore_cons, if_neg he, if_neg he]
      simp only [List.any_cons, Bool.or_eq_true, beq_iff_eq] at h
      exact ih (by simpa [he] using h)

theorem updEntry_lookupScore_ne (b : Bool) (r : Chunk) (cid : Int) (add : ℚ)
    (st : FusionState) (cid' : Int) (h : cid' ≠ cid) :
    lookupScore (updEntry b r cid add st) cid' = lookupScore st cid' := by
  induction st with
  | nil => rfl
  | cons e es ih =>
    simp only [updEntry]
    split_ifs with he
    · rw [lookupScore_cons, lookupScore_cons]
      have : e.1 ≠ cid' := by rw [he]; exact fun hh => h hh.symm
      rw [if_neg (by simpa using this), if_neg (by simpa using this)]
    · rw [lookupScore_cons, lookupScore_cons, ih]

theorem updEntry_lookupChunk (b : Bool) (r : Chunk) (cid : Int) (add : ℚ)
    (st : FusionState) :
    lookupChunk (updEntry b r cid add st) cid =
      (lookupChunk st cid).map (fun ch => mergeChunk b ch r) := by
  induction st with
  | nil => rfl
  | cons e es ih =>
    simp only [updEntry]
    split_ifs with he
    · rw [lookupChunk_cons, lookupChunk_cons, if_pos he, if_pos he]
      rfl
    · rw [lookupChunk_cons, lookupChunk_cons, if_neg he, if_neg he, ih]

theorem updEntry_lookupChunk_ne (b : Bool) (r : Chunk) (cid : Int) (add : ℚ)
    (st : FusionState) (cid' : Int) (h : cid' ≠ cid) :
    lookupChunk (updEntry b r cid add st) cid' = lookupChunk st cid' := by
  induction st with
  | nil => rfl
  | cons e es ih =>
    simp only [updEntry]
    split_ifs with he
    · rw [lookupChunk_cons, lookupChunk_cons]
      have : e.1 ≠ cid' := by rw [he]; exact fun hh => h hh.symm
      rw [if_neg this, if_neg this]
    · rw [lookupChunk_cons, lookupChunk_cons, ih]

theorem lookupScore_append_one (st : FusionState) (x : Int × ℚ × Chunk) (cid : Int) :
    lookupScore (st ++ [x]) cid =
      if st.any (fun e => e.1 == cid) = true then lookupScore st cid
      else if x.1 = cid then x.2.1 else 0 := by
  induction st with
  | nil => by_cases h : x.1 = cid <;> simp [lookupScore, List.find?_cons, h]
  | cons e es ih =>
    rw [List.cons_append, lookupScore_cons, lookupScore_cons]
    by_cases he : e.1 = cid
    · rw [if_pos he, if_pos he, if_pos]
      simp [List.any_cons, he]
    · rw [if_neg he, if_neg he, ih]
      have hb : (e.1 == cid) = false := by simpa using he
      simp only [List.any_cons, hb, Bool.false_or]

theorem lookupChunk_append_one (st : FusionState) (x : Int × ℚ × Chunk) (cid : Int) :
    lookupChunk (st ++ [x]) cid =
      if st.any (fun e => e.1 == cid) = true then lookupChunk st cid
      else if x.1 = cid then some x.2.2 else none := by
  induction st with
  | nil => by_cases h : x.1 = cid <;> simp [lookupChunk, List.find?_cons, h]
  | cons e es ih =>
    rw [List.cons_append, lookupChunk_cons, lookupChunk_cons]
    by_cases he : e.1 = cid
    · rw [if_pos he, if_pos he, if_pos]
      simp [List.any_cons, he]
    · rw [if_neg he, if_neg he, ih]
      have hb : (e.1 == cid) = false := by simpa using he
      simp only [List.any_cons, hb, Bool.false_or]

theorem rrfStep_lookupScore (k : ℚ) (b : Bool) (rank : Nat) (r : Chunk)
    (st : FusionState) (cid : Int) :
    lookupScore (rrfStep k b rank r st) cid =
      lookupScore st cid + (if r.chunk_id = some cid then 1/(k + rank) else 0) := by
  cases hid : r.chunk_id with
  | none => simp [rrfStep, hid]
  | some cid' =>
    simp only [rrfStep, hid]
    by_cases hmem : st.any (fun e => e.1 == cid') = true
    · rw [if_pos hmem]
      by_cases hc : cid' = cid
      · subst hc
        rw [updEntry_lookupScore_self _ _ _ _ _ hmem, if_pos rfl]
      · rw [updEntry_lookupScore_ne _ _ _ _ _ _ (fun h => hc h.symm),
          if_neg (by simp [hc]), add_zero]
    · rw [if_neg hmem, lookupScore_append_one]
      by_cases hc : cid' = cid
      · subst hc
        rw [if_neg hmem, if_pos rfl, if_pos rfl,
          lookupScore_eq_zero_of_not_any st _ (Bool.eq_false_iff.mpr hmem), zero_add]
      · by_cases hq : st.any (fun e => e.1 == cid) = true
        · rw [if_pos hq, if_neg (by simp [hc]), add_zero]
        · rw [if_neg hq, if_neg hc, if_neg (by simp [hc]), add_zero,
            lookupScore_eq_zero_of_not_any st _ (Bool.eq_false_iff.mpr hq)]

theorem rrfProcess_lookupScore (k : ℚ) (b : Bool) (l : List Chunk) :
    ∀ (rank : Nat) (st : FusionState) (cid : Int),
      lookupScore (rrfProcess k b l rank st) cid =
        lookupScore st cid + rrfSum k cid l rank := by
  induction l with
  | nil => intro rank st cid; simp [rrfProcess, rrfSum]
  | cons r rs ih =>
    intro rank st cid
    simp only [rrfProcess, rrfSum]
    rw [ih, rrfStep_lookupScore]
    by_cases h : r.chunk_id = some cid <;> simp [h] <;> ring

theorem rrfSum_eq_zero (k : ℚ) (cid : Int) :
    ∀ (l : List Chunk) (rank : Nat), (∀ r ∈ l, r.chunk_id ≠ some cid) →
      rrfSum k cid l rank = 0 := by
  intro l
  induction l with
  | nil => intro rank _; rfl
  | cons r rs ih =>
    intro rank h
    simp only [rrfSum]
    rw [ih (rank + 1) (fun x hx => h x (List.mem_cons_of_mem r hx))]
    have : (r.chunk_id == some cid) = false := by
      simpa using h r (List.mem_cons_self r rs)
    rw [this]
    simp

theorem mem_filterMap_chunk_id {l : List Chunk} {cid : Int} :
    cid ∈ l.filterMap (·.chunk_id) ↔ ∃ r ∈ l, r.chunk_id = some cid := by
  simp [List.mem_filterMap]

theorem rrfSum_eq_of_nodup (k : ℚ) (cid : Int) :
    ∀ (l : List Chunk) (rank : Nat), (l.filterMap (·.chunk_id)).Nodup →
      rrfSum k cid l rank =
        (match rankOf l cid with
         | some i => 1/(k + (rank + i - 1 : Nat))
         | none => 0) := by
  intro l
  induction l with
  | nil => intro rank _; rfl
  | cons r rs ih =>
    intro rank hnd
    by_cases h : r.chunk_id = some cid
    · have hb : (r.chunk_id == some cid) = true := by simp [h]
      have hcid_tail : ∀ x ∈ rs, x.chunk_id ≠ some cid := by
        intro x hx hxc
        have : cid ∈ rs.filterMap (·.chunk_id) := mem_filterMap_chunk_id.mpr ⟨x, hx, hxc⟩
        have hnd' : (cid :: rs.filterMap (·.chunk_id)).Nodup := by
          simpa [List.filterMap_cons, h] using hnd
        exact (List.nodup_cons.mp hnd').1 this
      simp only [rrfSum, rankOf, hb, if_pos h]
      rw [rrfSum_eq_zero k cid rs (rank + 1) hcid_tail]
      have : (rank + 1 - 1 : Nat) = rank := by omega
      simp [this]
    · have hb : (r.chunk_id == some cid) = false := by simp [h]
      have hnd' : (rs.filterMap (·.chunk_id)).Nodup := by
        cases hc : r.chunk_id with
        | none => simpa [List.filterMap_cons, hc] using hnd
        | some c =>
          have : (c :: rs.filterMap (·.chunk_id)).Nodup := by
            simpa [List.filterMap_cons, hc] using hnd
          exact (List.nodup_cons.mp this).2
      simp only [rrfSum, rankOf, hb, if_neg h]
      rw [ih (rank + 1) hnd']
      cases hro : rankOf rs cid with
      | none => simp
      | some i =>
        simp only [Option.map_some]
        have : (rank + 1 + i - 1 : Nat) = (rank + (i + 1) - 1 : Nat) := by omega
        rw [this]
        simp

theorem rrfSum_one_eq_contrib (k : ℚ) (cid : Int) (l : List Chunk)
    (hnd : (l.filterMap (·.chunk_id)).Nodup) :
    rrfSum k cid l 1 = contrib k l cid := by
  rw [rrfSum_eq_of_nodup k cid l 1 hnd]
  unfold contrib
  cases hro : rankOf l cid with
  | none => rfl
  | some i =>
    have : (1 + i - 1 : Nat) = i := by omega
    simp [this]

theorem mergeChunk_chunk_id (b : Bool) (s r : Chunk) :
    (mergeChunk b s r).chunk_id = s.chunk_id := by
  cases b <;> simp only [mergeChunk] <;> cases r.embedding <;> rfl

theorem updEntry_mem (b : Bool) (r : Chunk) (cid : Int) (add : ℚ) :
    ∀ (st : FusionState) (x : Int × ℚ × Chunk), x ∈ updEntry b r cid add st →
      x ∈ st ∨ ∃ e ∈ st, e.1 = cid ∧ x = (e.1, e.2.1 + add, mergeChunk b e.2.2 r) := by
  intro st
  induction st with
  | nil => intro x hx; exact absurd hx (List.not_mem_nil x)
  | cons e es ih =>
    intro x hx
    simp only [updEntry] at hx
    split_ifs at hx with he
    · rcases List.mem_cons.mp hx with hx | hx
      · exact Or.inr ⟨e, List.mem_cons_self e es, he, hx⟩
      · exact Or.inl (List.mem_cons_of_mem e hx)
    · rcases List.mem_cons.mp hx with hx | hx
      · exact Or.inl (hx ▸ List.mem_cons_self e es)
      · rcases ih x hx with h | ⟨e', he', hc, hh⟩
        · exact Or.inl (List.mem_cons_of_mem e h)
        · exact Or.inr ⟨e', List.mem_cons_of_mem e he', hc, hh⟩

theorem rrfStep_chunk_id_inv (k : ℚ) (b : Bool) (rank : Nat) (r : Chunk)
    (st : FusionState) (h : ∀ e ∈ st, e.2.2.chunk_id = some e.1) :
    ∀ e ∈ rrfStep k b rank r st, e.2.2.chunk_id = some e.1 := by
  intro x hx
  cases hid : r.chunk_id with
  | none => rw [rrfStep, hid] at hx; exact h x hx
  | some cid =>
    rw [rrfStep, hid] at hx
    simp only at hx
    split_ifs at hx with hmem
    · rcases updEntry_mem b r cid (1/(k + rank)) st x hx with hx | ⟨e, he, hc, rfl⟩
      · exact h x hx
      · simpa [mergeChunk_chunk_id] using h e he
    · rcases List.mem_append.mp hx with hx | hx
      · exact h x hx
      · simp only [List.mem_singleton] at hx
        subst hx
        exact hid

theorem rrfProcess_chunk_id_inv (k : ℚ) (b : Bool) :
    ∀ (l : List Chunk) (rank : Nat) (st : FusionState),
      (∀ e ∈ st, e.2.2.chunk_id = some e.1) →
      ∀ e ∈ rrfProcess k b l rank st, e.2.2.chunk_id = some e.1 := by
  intro l
  induction l with
  | nil => intro rank st h; exact h
  | cons r rs ih =>
    intro rank st h
    exact ih (rank + 1) _ (rrfStep_chunk_id_inv k b rank r st h)

theorem rrfStep_map_fst (k : ℚ) (b : Bool) (rank : Nat) (r : Chunk) (st : FusionState) :
    (rrfStep k b rank r st).map (·.1) =
      (match r.chunk_id with
       | none => st.map (·.1)
       | some cid =>
         if cid ∈ st.map (·.1) then st.map (·.1) else st.map (·.1) ++ [cid]) := by
  cases hid : r.chunk_id with
  | none => simp [rrfStep, hid]
  | some cid =>
    simp only [rrfStep, hid]
    by_cases hmem : st.any (fun e => e.1 == cid) = true
    · rw [if_pos hmem, updEntry_map_fst, if_pos ((any_fst_iff st cid).mp hmem)]
    · rw [if_neg hmem, List.map_append,
        if_neg (fun hc => hmem ((any_fst_iff st cid).mpr hc))]
      rfl

theorem rrfProcess_map_fst (k : ℚ) (b : Bool) :
    ∀ (l : List Chunk) (rank : Nat) (st : FusionState),
      (rrfProcess k b l rank st).map (·.1) = collectIds (st.map (·.1)) l := by
  intro l
  induction l with
  | nil => intro rank st; rfl
  | cons r rs ih =>
    intro rank st
    rw [rrfProcess, ih, rrfStep_map_fst]
    cases hid : r.chunk_id with
    | none => simp only [collectIds, hid]
    | some cid => simp only [collectIds, hid]

theorem collectIds_nodup : ∀ (l : List Chunk) (acc : List Int), acc.Nodup →
    (collectIds acc l).Nodup := by
  intro l
  induction l with
  | nil => intro acc h; exact h
  | cons r rs ih =>
    intro acc h
    cases hid : r.chunk_id with
    | none => simp only [collectIds, hid]; exact ih acc h
    | some cid =>
      simp only [collectIds, hid]
      by_cases hc : cid ∈ acc
      · simpa [hc] using ih acc h
      · have hnd : (acc ++ [cid]).Nodup := by
          refine List.nodup_append.mpr ⟨h, List.nodup_singleton cid, ?_⟩
          intro a ha hb
          simp only [List.mem_singleton] at hb
          subst hb
          exact hc ha
        simpa [hc] using ih (acc ++ [cid]) hnd

theorem collectIds_append : ∀ (l1 l2 : List Chunk) (acc : List Int),
    collectIds acc (l1 ++ l2) = collectIds (collectIds acc l1) l2 := by
  intro l1
  induction l1 with
  | nil => intro l2 acc; rfl
  | cons r rs ih =>
    intro l2 acc
    cases hid : r.chunk_id with
    | none => rw [List.cons_append]; simp only [collectIds, hid]; rw [ih]
    | some cid => rw [List.cons_append]; simp only [collectIds, hid]; rw [ih]

theorem find?_fst_eq_of_mem : ∀ (st : FusionState) (e : Int × ℚ × Chunk),
    e ∈ st → (st.map (·.1)).Nodup → st.find? (fun x => x.1 == e.1) = some e := by
  intro st
  induction st with
  | nil => intro e he _; exact absurd he (List.not_mem_nil e)
  | cons hd tl ih =>
    intro e he hnd
    have hnd' : hd.1 ∉ tl.map (·.1) ∧ (tl.map (·.1)).Nodup := by
      simpa [List.map_cons, List.nodup_cons] using hnd
    rcases List.mem_cons.mp he with he | he
    · subst he
      simp [List.find?_cons]
    · have hne : (hd.1 == e.1) = false := by
        simp only [beq_eq_false_iff_ne, ne_eq]
        intro hh
        exact hnd'.1 (hh ▸ List.mem_map_of_mem (·.1) he)
      simp only [List.find?_cons, hne]
      exact ih e he hnd'.2

/-- C2: when ids are unique within each input list, every fused candidate
carries as its score the sum, over the input lists containing it, of
`1/(k + rank)` with `rank` its 1-indexed position in that list; in
particular a candidate ranked #1 in both lists with `k = 60` gets
`2/(60+1) = 2/61`.  (`0 ≤ k` keeps `k + rank` positive, where the Python
float division is defined.) -/
theorem rrf_fusion_reciprocal_rank_scores (bm25 vec : List Chunk) (k : ℚ)
    (hk : 0 ≤ k)
    (h1 : (bm25.filterMap (·.chunk_id)).Nodup)
    (h2 : (vec.filterMap (·.chunk_id)).Nodup) :
    (∀ c ∈ rrf_fusion bm25 vec k, ∃ cid, c.chunk_id = some cid ∧
      c.rrf_score = some (contrib k bm25 cid + contrib k vec cid)) ∧
    (rrf_fusion [{ chunk_id := some 7, bm25_score := some (3/10) }]
      [{ chunk_id := some 7, vector_score := some (4/5) }] 60).map
      (fun c => c.rrf_score) = [some (2/61)] := by
  constructor
  · intro c hc
    rw [rrf_fusion] at hc
    have hc' : c ∈ rrfFused bm25 vec k :=
      (sortByKeyDesc_perm (fun c => c.rrf_score.getD 0) _).mem_iff.mp hc
    rw [rrfFused, rrfFinalize] at hc'
    obtain ⟨e, he, rfl⟩ := List.mem_map.mp hc'
    have hinv : ∀ x ∈ rrfProcess k true vec 1 (rrfProcess k false bm25 1 []),
        x.2.2.chunk_id = some x.1 :=
      rrfProcess_chunk_id_inv k true vec 1 _
        (rrfProcess_chunk_id_inv k false bm25 1 []
          (fun x hx => absurd hx (List.not_mem_nil x)))
    have hkeys : ((rrfProcess k true vec 1 (rrfProcess k false bm25 1 [])).map
        (·.1)).Nodup := by
      rw [rrfProcess_map_fst, rrfProcess_map_fst]
      exact collectIds_nodup vec _ (collectIds_nodup bm25 [] List.nodup_nil)
    refine ⟨e.1, hinv e he, ?_⟩
    have hfind := find?_fst_eq_of_mem _ e he hkeys
    have hls : lookupScore (rrfProcess k true vec 1 (rrfProcess k false bm25 1 []))
        e.1 = e.2.1 := by
      simp [lookupScore, hfind]
    rw [rrfProcess_lookupScore, rrfProcess_lookupScore] at hls
    have hnil : lookupScore [] e.1 = 0 := rfl
    rw [hnil, zero_add, rrfSum_one_eq_contrib k e.1 bm25 h1,
      rrfSum_one_eq_contrib k e.1 vec h2] at hls
    exact congrArg some hls.symm
  · simp [rrf_fusion, rrfFused, rrfProcess, rrfStep, rrfFinalize, finalizeEntry,
      mergeChunk, updEntry, sortByKeyDesc, insertByKeyDesc]
    norm_num

/-- Closed witness for the C2 theorem: its concrete `2/61` conjunct,
obtained by applying the theorem with its hypotheses discharged. -/
theorem rrf_fusion_reciprocal_rank_scores_witness :
    (rrf_fusion [{ chunk_id := some 7, bm25_score := some (3/10) }]
      [{ chunk_id := some 7, vector_score := some (4/5) }] 60).map
      (fun c => c.rrf_score) = [some (2/61)] :=
  (rrf_fusion_reciprocal_rank_scores
    [{ chunk_id := some 1, bm25_score := some (1/2) }]
    [{ chunk_id := some 2, vector_score := some (3/4) }] 60 (by norm_num)
    (by simp) (by simp)).2

theorem finalizeEntry_chunk_id (e : Int × ℚ × Chunk) :
    (finalizeEntry e).chunk_id = e.2.2.chunk_id := rfl

theorem finalizeEntry_rrf_score (e : Int × ℚ × Chunk) :
    (finalizeEntry e).rrf_score = some e.2.1 := rfl

theorem rrfFinalize_filterMap_chunk_id (st : FusionState)
    (h : ∀ e ∈ st, e.2.2.chunk_id = some e.1) :
    (rrfFinalize st).filterMap (·.chunk_id) = st.map (·.1) := by
  induction st with
  | nil => rfl
  | cons e es ih =>
    have hh : e.2.2.chunk_id = some e.1 := h e (List.mem_cons_self e es)
    have ih' := ih (fun x hx => h x (List.mem_cons_of_mem e hx))
    simp only [rrfFinalize] at ih'
    rw [rrfFinalize, List.map_cons]
    simp only [List.filterMap_cons, finalizeEntry_chunk_id, hh, List.map_cons]
    rw [ih']

/-- C4: the fusion output is sorted in non-increasing order of fused
score; candidates with equal fused score keep the pre-sort order (the
sort is stable), and the pre-sort order is the order of first appearance
of the ids across the concatenated inputs — so the output ordering is
deterministic.  (The spec's secondary "then by candidate id" tiebreak is
vacuous: first-appearance order already totally orders the merged
candidates.) -/
theorem rrf_fusion_sorted_and_deterministic (bm25 vec : List Chunk) (k : ℚ) :
    (rrf_fusion bm25 vec k).Pairwise
      (fun a b => b.rrf_score.getD 0 ≤ a.rrf_score.getD 0) ∧
    (∀ v : ℚ, (rrf_fusion bm25 vec k).filter
        (fun c => decide (c.rrf_score.getD 0 = v)) =
      (rrfFused bm25 vec k).filter (fun c => decide (c.rrf_score.getD 0 = v))) ∧
    (rrfFused bm25 vec k).filterMap (·.chunk_id) = collectIds [] (bm25 ++ vec) := by
  refine ⟨?_, ?_, ?_⟩
  · rw [rrf_fusion]
    exact pairwise_sortByKeyDesc (fun c : Chunk => c.rrf_score.getD 0) _
  · intro v
    rw [rrf_fusion]
    exact filter_sortByKeyDesc (fun c : Chunk => c.rrf_score.getD 0) v _
  · have hinv : ∀ x ∈ rrfProcess k true vec 1 (rrfProcess k false bm25 1 []),
        x.2.2.chunk_id = some x.1 :=
      rrfProcess_chunk_id_inv k true vec 1 _
        (rrfProcess_chunk_id_inv k false bm25 1 []
          (fun x hx => absurd hx (List.not_mem_nil x)))
    rw [rrfFused, rrfFinalize_filterMap_chunk_id _ hinv, rrfProcess_map_fst,
      rrfProcess_map_fst, collectIds_append]
    rfl

theorem mergeChunk_true_bm25 (s r : Chunk) :
    (mergeChunk true s r).bm25_score = s.bm25_score := by
  simp only [mergeChunk]
  cases r.embedding <;> rfl

theorem mergeChunk_true_vector (s r : Chunk) :
    (mergeChunk true s r).vector_score = r.vector_score := by
  simp only [mergeChunk]
  cases r.embedding <;> rfl

theorem lookupChunk_eq_none_of_not_any (st : FusionState) (cid : Int)
    (h : st.any (fun e => e.1 == cid) = false) : lookupChunk st cid = none := by
  induction st with
  | nil => rfl
  | cons e es ih =>
    simp only [List.any_cons, Bool.or_eq_false_iff] at h
    rw [lookupChunk_cons, if_neg (by simpa using h.1)]
    exact ih h.2

theorem lookupChunk_isSome_any (st : FusionState) (cid : Int) (ch : Chunk)
    (h : lookupChunk st cid = some ch) : st.any (fun e => e.1 == cid) = true := by
  by_contra hc
  rw [lookupChunk_eq_none_of_not_any st cid (Bool.eq_false_iff.mpr hc)] at h
  exact Option.noConfusion h

theorem rrfStep_any_true (k : ℚ) (b : Bool) (rank : Nat) (r : Chunk)
    (st : FusionState) (cid : Int) (h : st.any (fun e => e.1 == cid) = true) :
    (rrfStep k b rank r st).any (fun e => e.1 == cid) = true := by
  rw [any_fst_iff] at h ⊢
  rw [rrfStep_map_fst]
  cases hid : r.chunk_id with
  | none => exact h
  | some cid' =>
    by_cases hc : cid' ∈ st.map (·.1)
    · simpa [hc] using h
    · simp only [if_neg hc]
      exact List.mem_append_left _ h

theorem rrfStep_any_false (k : ℚ) (b : Bool) (rank : Nat) (r : Chunk)
    (st : FusionState) (cid : Int) (hid : r.chunk_id ≠ some cid)
    (h : st.any (fun e => e.1 == cid) = false) :
    (rrfStep k b rank r st).any (fun e => e.1 == cid) = false := by
  rw [← Bool.not_eq_true] at h ⊢
  rw [any_fst_iff] at h ⊢
  rw [rrfStep_map_fst]
  cases hc : r.chunk_id with
  | none => exact h
  | some cid' =>
    by_cases hm : cid' ∈ st.map (·.1)
    · simpa [hm] using h
    · simp only [if_neg hm]
      intro hmem
      rcases List.mem_append.mp hmem with hmem | hmem
      · exact h hmem
      · simp only [List.mem_singleton] at hmem
        exact hid (by rw [hc, hmem])

theorem rrfStep_lookupChunk_ne (k : ℚ) (b : Bool) (rank : Nat) (r : Chunk)
    (st : FusionState) (cid : Int) (hid : r.chunk_id ≠ some cid) :
    lookupChunk (rrfStep k b rank r st) cid = lookupChunk st cid := by
  cases hc : r.chunk_id with
  | none => rw [rrfStep, hc]
  | some cid' =>
    have hne : cid ≠ cid' := fun h => hid (by rw [hc, h])
    rw [rrfStep, hc]
    simp only
    split_ifs with hmem
    · exact updEntry_lookupChunk_ne _ _ _ _ _ _ hne
    · rw [lookupChunk_append_one]
      by_cases hq : st.any (fun e => e.1 == cid) = true
      · rw [if_pos hq]
      · rw [if_neg hq, if_neg (fun h => hne h.symm),
          lookupChunk_eq_none_of_not_any st cid (Bool.eq_false_iff.mpr hq)]

theorem rrfProcess_lookupChunk_no_occ (k : ℚ) (b : Bool) :
    ∀ (l : List Chunk) (rank : Nat) (st : FusionState) (cid : Int),
      (∀ r ∈ l, r.chunk_id ≠ some cid) →
      lookupChunk (rrfProcess k b l rank st) cid = lookupChunk st cid := by
  intro l
  induction l with
  | nil => intro rank st cid _; rfl
  | cons r rs ih =>
    intro rank st cid h
    rw [rrfProcess, ih (rank + 1) _ cid (fun x hx => h x (List.mem_cons_of_mem r hx)),
      rrfStep_lookupChunk_ne k b rank r st cid (h r (List.mem_cons_self r rs))]

theorem filterMap_chunk_id_tail_nodup {r : Chunk} {rs : List Chunk}
    (h : ((r :: rs).filterMap (·.chunk_id)).Nodup) :
    (rs.filterMap (·.chunk_id)).Nodup := by
  cases hc : r.chunk_id with
  | none => simpa [List.filterMap_cons, hc] using h
  | some c =>
    have : (c :: rs.filterMap (·.chunk_id)).Nodup := by
      simpa [List.filterMap_cons, hc] using h
    exact (List.nodup_cons.mp this).2

theorem head_some_not_in_tail {r : Chunk} {rs : List Chunk} {cid : Int}
    (hr : r.chunk_id = some cid)
    (hnd : ((r :: rs).filterMap (·.chunk_id)).Nodup) :
    ∀ x ∈ rs, x.chunk_id ≠ some cid := by
  intro x hx hxc
  have hmem : cid ∈ rs.filterMap (·.chunk_id) :=
    mem_filterMap_chunk_id.mpr ⟨x, hx, hxc⟩
  have : (cid :: rs.filterMap (·.chunk_id)).Nodup := by
    simpa [List.filterMap_cons, hr] using hnd
  exact (List.nodup_cons.mp this).1 hmem

theorem rrfProcess_lookupChunk_unique (k : ℚ) (b : Bool) :
    ∀ (l : List Chunk) (rank : Nat) (st : FusionState) (cid : Int) (rv : Chunk),
      rv ∈ l → rv.chunk_id = some cid → (l.filterMap (·.chunk_id)).Nodup →
      st.any (fun e => e.1 == cid) = true →
      lookupChunk (rrfProcess k b l rank st) cid =
        (lookupChunk st cid).map (fun ch => mergeChunk b ch rv) := by
  intro l
  induction l with
  | nil => intro rank st cid rv hrv; exact absurd hrv (List.not_mem_nil rv)
  | cons r rs ih =>
    intro rank st cid rv hrv hrvid hnd hany
    by_cases hr : r.chunk_id = some cid
    · have hreq : rv = r := by
        rcases List.mem_cons.mp hrv with h | h
        · exact h
        · exact absurd hrvid (head_some_not_in_tail hr hnd rv h)
      subst hreq
      rw [rrfProcess,
        rrfProcess_lookupChunk_no_occ k b rs (rank + 1) _ cid
          (head_some_not_in_tail hr hnd)]
      rw [rrfStep, hr]
      simp only
      rw [if_pos hany]
      exact updEntry_lookupChunk b rv cid _ st
    · have hrv' : rv ∈ rs := by
        rcases List.mem_cons.mp hrv with h | h
        · exact absurd (h ▸ hrvid) hr
        · exact h
      rw [rrfProcess,
        ih (rank + 1) _ cid rv hrv' hrvid (filterMap_chunk_id_tail_nodup hnd)
          (rrfStep_any_true k b rank r st cid hany),
        rrfStep_lookupChunk_ne k b rank r st cid hr]

theorem rrfProcess_lookupChunk_fresh (k : ℚ) (b : Bool) :
    ∀ (l : List Chunk) (rank : Nat) (st : FusionState) (cid : Int) (rv : Chunk),
      rv ∈ l → rv.chunk_id = some cid → (l.filterMap (·.chunk_id)).Nodup →
      st.any (fun e => e.1 == cid) = false →
      lookupChunk (rrfProcess k b l rank st) cid = some rv := by
  intro l
  induction l with
  | nil => intro rank st cid rv hrv; exact absurd hrv (List.not_mem_nil rv)
  | cons r rs ih =>
    intro rank st cid rv hrv hrvid hnd hany
    by_cases hr : r.chunk_id = some cid
    · have hreq : rv = r := by
        rcases List.mem_cons.mp hrv with h | h
        · exact h
        · exact absurd hrvid (head_some_not_in_tail hr hnd rv h)
      subst hreq
      rw [rrfProcess,
        rrfProcess_lookupChunk_no_occ k b rs (rank + 1) _ cid
          (head_some_not_in_tail hr hnd)]
      rw [rrfStep, hr]
      simp only
      rw [if_neg (by simp [hany]), lookupChunk_append_one, if_neg (by simp [hany]),
        if_pos rfl]
    · have hrv' : rv ∈ rs := by
        rcases List.mem_cons.mp hrv with h | h
        · exact absurd (h ▸ hrvid) hr
        · exact h
      rw [rrfProcess,
        ih (rank + 1) _ cid rv hrv' hrvid (filterMap_chunk_id_tail_nodup hnd)
          (rrfStep_any_false k b rank r st cid hr hany)]

/-- C5: with ids unique within each input list, every output id is
present and appears at most once; a candidate found by both methods
yields a single merged entry retaining the bm25 entry's bm25 score and
the vector entry's vector score, marked as found by both methods. -/
theorem rrf_fusion_merges_candidates (bm25 vec : List Chunk) (k : ℚ)
    (h1 : (bm25.filterMap (·.chunk_id)).Nodup)
    (h2 : (vec.filterMap (·.chunk_id)).Nodup) :
    (∀ c ∈ rrf_fusion bm25 vec k, c.chunk_id.isSome) ∧
    ((rrf_fusion bm25 vec k).filterMap (·.chunk_id)).Nodup ∧
    (∀ (cid : Int) (rb rv : Chunk), rb ∈ bm25 → rb.chunk_id = some cid →
      rv ∈ vec → rv.chunk_id = some cid →
      rb.bm25_score.isSome → rv.vector_score.isSome →
      ∃ c ∈ rrf_fusion bm25 vec k, c.chunk_id = some cid ∧
        c.bm25_score = rb.bm25_score ∧ c.vector_score = rv.vector_score ∧
        c.found_in_methods = ["bm25", "vector"] ∧ c.in_both_methods = true) := by
  have hinv : ∀ x ∈ rrfProcess k true vec 1 (rrfProcess k false bm25 1 []),
      x.2.2.chunk_id = some x.1 :=
    rrfProcess_chunk_id_inv k true vec 1 _
      (rrfProcess_chunk_id_inv k false bm25 1 []
        (fun x hx => absurd hx (List.not_mem_nil x)))
  have hperm : List.Perm (rrf_fusion bm25 vec k) (rrfFused bm25 vec k) := by
    rw [rrf_fusion]
    exact sortByKeyDesc_perm (fun c : Chunk => c.rrf_score.getD 0) _
  refine ⟨?_, ?_, ?_⟩
  · intro c hc
    have hc' : c ∈ rrfFused bm25 vec k := hperm.mem_iff.mp hc
    rw [rrfFused, rrfFinalize] at hc'
    obtain ⟨e, he, rfl⟩ := List.mem_map.mp hc'
    rw [finalizeEntry_chunk_id, hinv e he]
    rfl
  · have hkeys : ((rrfProcess k true vec 1 (rrfProcess k false bm25 1 [])).map
        (·.1)).Nodup := by
      rw [rrfProcess_map_fst, rrfProcess_map_fst]
      exact collectIds_nodup vec _ (collectIds_nodup bm25 [] List.nodup_nil)
    have hfused : (rrfFused bm25 vec k).filterMap (·.chunk_id) =
        (rrfProcess k true vec 1 (rrfProcess k false bm25 1 [])).map (·.1) :=
      rrfFinalize_filterMap_chunk_id _ hinv
    have := (hperm.filterMap (·.chunk_id)).nodup_iff
    rw [hfused] at this
    exact this.mpr hkeys
  · intro cid rb rv hrb hrbid hrv hrvid hbs hvs
    have hfresh : lookupChunk (rrfProcess k false bm25 1 []) cid = some rb :=
      rrfProcess_lookupChunk_fresh k false bm25 1 [] cid rb hrb hrbid h1 rfl
    have hany : (rrfProcess k false bm25 1 []).any (fun e => e.1 == cid) = true :=
      lookupChunk_isSome_any _ cid rb hfresh
    have hmerge : lookupChunk
        (rrfProcess k true vec 1 (rrfProcess k false bm25 1 [])) cid =
        some (mergeChunk true rb rv) := by
      rw [rrfProcess_lookupChunk_unique k true vec 1 _ cid rv hrv hrvid h2 hany,
        hfresh]
      rfl
    rw [lookupChunk] at hmerge
    obtain ⟨e, hfind, hch⟩ := Option.map_eq_some'.mp hmerge
    have he : e ∈ rrfProcess k true vec 1 (rrfProcess k false bm25 1 []) :=
      List.mem_of_find?_eq_some hfind
    have heid : e.1 = cid := by
      have := List.find?_some hfind
      simpa using this
    refine ⟨finalizeEntry e, ?_, ?_, ?_, ?_, ?_, ?_⟩
    · apply hperm.mem_iff.mpr
      rw [rrfFused, rrfFinalize]
      exact List.mem_map_of_mem finalizeEntry he
    · rw [finalizeEntry_chunk_id, hch, mergeChunk_chunk_id, hrbid]
    · have : (finalizeEntry e).bm25_score = e.2.2.bm25_score := rfl
      rw [this, hch, mergeChunk_true_bm25]
    · have : (finalizeEntry e).vector_score = e.2.2.vector_score := rfl
      rw [this, hch, mergeChunk_true_vector]
    · have hb : (mergeChunk true rb rv).bm25_score.isSome = true := by
        rw [mergeChunk_true_bm25]; exact hbs
      have hv : (mergeChunk true rb rv).vector_score.isSome = true := by
        rw [mergeChunk_true_vector]; exact hvs
      simp [finalizeEntry, hch, hb, hv]
    · have hb : (mergeChunk true rb rv).bm25_score.isSome = true := by
        rw [mergeChunk_true_bm25]; exact hbs
      have hv : (mergeChunk true rb rv).vector_score.isSome = true := by
        rw [mergeChunk_true_vector]; exact hvs
      simp [finalizeEntry, hch, hb, hv]

/-- Closed witness for the C5 theorem at a concrete both-methods
candidate. -/
theorem rrf_fusion_merges_candidates_witness :
    ∃ c ∈ rrf_fusion [{ chunk_id := some 3, bm25_score := some (1/4) }]
      [{ chunk_id := some 3, vector_score := some (2/3) }] 60,
      c.chunk_id = some 3 ∧ c.bm25_score = some (1/4) ∧
      c.vector_score = some (2/3) ∧
      c.found_in_methods = ["bm25", "vector"] ∧ c.in_both_methods = true :=
  (rrf_fusion_merges_candidates
      [{ chunk_id := some 3, bm25_score := some (1/4) }]
      [{ chunk_id := some 3, vector_score := some (2/3) }] 60
      (by simp) (by simp)).2.2 3
    { chunk_id := some 3, bm25_score := some (1/4) }
    { chunk_id := some 3, vector_score := some (2/3) }
    (by simp) rfl (by simp) rfl rfl rfl

/-- C3 counterexample: with a single bm25 result of native score `0.5`
ranked #1 and no vector results, `rrf_fusion` assigns fused score
`1/(60+1)`, not the native score `0.5` — the spec sentence
"fusedScore = that method's native score" is false on the code. -/
theorem rrf_fusion_single_method_not_native_score :
    (rrf_fusion [{ chunk_id := some 1, bm25_score := some (1/2) }] [] 60).map
      (fun c => c.rrf_score) = [some (1/61)] ∧
    (rrf_fusion [{ chunk_id := some 1, bm25_score := some (1/2) }] [] 60).map
      (fun c => c.bm25_score) = [some (1/2)] ∧
    (1/61 : ℚ) ≠ 1/2 := by
  refine ⟨?_, ?_, by norm_num⟩ <;>
    simp [rrf_fusion, rrfFused, rrfProcess, rrfStep, rrfFinalize, finalizeEntry,
      sortByKeyDesc, insertByKeyDesc] <;> norm_num

theorem rrfProcess_fresh (k : ℚ) (b : Bool) :
    ∀ (l : List Chunk) (rank : Nat) (st : FusionState),
      (∀ r ∈ l, ∃ cid, r.chunk_id = some cid ∧ cid ∉ st.map (·.1)) →
      (l.filterMap (·.chunk_id)).Nodup →
      rrfProcess k b l rank st = st ++ freshEntries k l rank := by
  intro l
  induction l with
  | nil => intro rank st _ _; simp [rrfProcess, freshEntries]
  | cons r rs ih =>
    intro rank st hfresh hnd
    obtain ⟨cid, hcid, hnotin⟩ := hfresh r (List.mem_cons_self r rs)
    have hstep : rrfStep k b rank r st = st ++ [(cid, 1/(k + rank), r)] := by
      rw [rrfStep, hcid]
      simp only
      rw [if_neg (fun h => hnotin ((any_fst_iff st cid).mp h))]
    rw [rrfProcess, hstep, ih (rank + 1) _ ?_ (filterMap_chunk_id_tail_nodup hnd)]
    · simp only [freshEntries, hcid, List.append_assoc, List.singleton_append]
    · intro x hx
      obtain ⟨cx, hcx, hnx⟩ := hfresh x (List.mem_cons_of_mem r hx)
      refine ⟨cx, hcx, ?_⟩
      rw [List.map_append]
      intro hmem
      rcases List.mem_append.mp hmem with hmem | hmem
      · exact hnx hmem
      · simp only [List.map_cons, List.map_nil, List.mem_singleton] at hmem
        subst hmem
        exact head_some_not_in_tail hcid hnd x hx hcx

theorem freshEntries_score_mem (k : ℚ) :
    ∀ (l : List Chunk) (rank : Nat) (e : Int × ℚ × Chunk),
      e ∈ freshEntries k l rank → ∃ r', rank ≤ r' ∧ e.2.1 = 1/(k + (r' : Nat)) := by
  intro l
  induction l with
  | nil => intro rank e he; exact absurd he (List.not_mem_nil e)
  | cons r rs ih =>
    intro rank e he
    cases hc : r.chunk_id with
    | none =>
      rw [freshEntries, hc] at he
      obtain ⟨r', hr', hs⟩ := ih (rank + 1) e he
      exact ⟨r', by omega, hs⟩
    | some cid =>
      rw [freshEntries, hc] at he
      rcases List.mem_cons.mp he with he | he
      · exact ⟨rank, le_refl rank, by rw [he]⟩
      · obtain ⟨r', hr', hs⟩ := ih (rank + 1) e he
        exact ⟨r', by omega, hs⟩

theorem pairwise_finalize_fresh (k : ℚ) (hk : 0 ≤ k) :
    ∀ (l : List Chunk) (rank : Nat), 1 ≤ rank →
      (rrfFinalize (freshEntries k l rank)).Pairwise
        (fun a b => b.rrf_score.getD 0 ≤ a.rrf_score.getD 0) := by
  intro l
  induction l with
  | nil => intro rank _; simp [freshEntries, rrfFinalize]
  | cons r rs ih =>
    intro rank hrank
    cases hc : r.chunk_id with
    | none =>
      rw [freshEntries, hc]
      exact ih (rank + 1) (by omega)
    | some cid =>
      rw [freshEntries, hc, rrfFinalize, List.map_cons]
      rw [List.pairwise_cons]
      constructor
      · intro z hz
        simp only [rrfFinalize] at ih
        obtain ⟨e, he, rfl⟩ := List.mem_map.mp hz
        obtain ⟨r', hr', hs⟩ := freshEntries_score_mem k rs (rank + 1) e he
        rw [finalizeEntry_rrf_score, finalizeEntry_rrf_score]
        simp only [Option.getD_some, hs]
        have hpos : (0 : ℚ) < k + rank := by
          have : (1 : ℚ) ≤ (rank : ℚ) := by exact_mod_cast hrank
          linarith
        have hle : (k + (rank : ℚ)) ≤ k + (r' : ℚ) := by
          have : (rank : ℚ) ≤ (r' : ℚ) := by exact_mod_cast (by omega : rank ≤ r')
          linarith
        exact one_div_le_one_div_of_le hpos hle
      · exact ih (rank + 1) (by omega)

theorem map_chunk_id_finalize_fresh (k : ℚ) :
    ∀ (l : List Chunk) (rank : Nat), (∀ r ∈ l, r.chunk_id.isSome) →
      (rrfFinalize (freshEntries k l rank)).map (fun c => c.chunk_id) =
        l.map (fun c => c.chunk_id) := by
  intro l
  induction l with
  | nil => intro rank _; rfl
  | cons r rs ih =>
    intro rank hsome
    obtain ⟨cid, hcid⟩ := Option.isSome_iff_exists.mp (hsome r (List.mem_cons_self r rs))
    rw [freshEntries, hcid, rrfFinalize, List.map_cons, List.map_cons, List.map_cons]
    simp only [rrfFinalize] at ih
    rw [ih (rank + 1) (fun x hx => hsome x (List.mem_cons_of_mem r hx))]
    rw [finalizeEntry_chunk_id]

theorem map_rrf_score_finalize_fresh (k : ℚ) :
    ∀ (l : List Chunk) (rank : Nat), (∀ r ∈ l, r.chunk_id.isSome) →
      (rrfFinalize (freshEntries k l rank)).map (fun c => c.rrf_score) =
        (List.range l.length).map (fun i => some (1/(k + ((rank + i : Nat) : ℚ)))) := by
  intro l
  induction l with
  | nil => intro rank _; rfl
  | cons r rs ih =>
    intro rank hsome
    obtain ⟨cid, hcid⟩ := Option.isSome_iff_exists.mp (hsome r (List.mem_cons_self r rs))
    rw [freshEntries, hcid, rrfFinalize, List.map_cons, List.map_cons]
    simp only [rrfFinalize] at ih
    rw [ih (rank + 1) (fun x hx => hsome x (List.mem_cons_of_mem r hx))]
    rw [finalizeEntry_rrf_score]
    simp only [List.length_cons, List.range_succ_eq_map, List.map_cons, List.map_map]
    rw [List.cons_eq_cons]
    refine ⟨by norm_num, ?_⟩
    apply List.map_congr_left
    intro i _
    simp only [Function.comp_apply, Option.some.injEq, Nat.succ_eq_add_one]
    push_cast
    ring

/-- Helper for the single-method cases: one result pass from the empty
state, finalized and sorted, equals the finalized fresh-entry list (the
sort is a no-op on the already-descending reciprocal-rank scores). -/
theorem rrf_single_pass_eval (k : ℚ) (b : Bool) (l : List Chunk) (hk : 0 ≤ k)
    (hsome : ∀ r ∈ l, r.chunk_id.isSome)
    (hnd : (l.filterMap (·.chunk_id)).Nodup) :
    sortByKeyDesc (fun c : Chunk => c.rrf_score.getD 0)
      (rrfFinalize (rrfProcess k b l 1 [])) = rrfFinalize (freshEntries k l 1) := by
  have hfresh : rrfProcess k b l 1 [] = [] ++ freshEntries k l 1 :=
    rrfProcess_fresh k b l 1 []
      (fun r hr => by
        obtain ⟨cid, hcid⟩ := Option.isSome_iff_exists.mp (hsome r hr)
        exact ⟨cid, hcid, by simp⟩)
      hnd
  rw [hfresh, List.nil_append]
  exact sortByKeyDesc_eq_self _ _ (pairwise_finalize_fresh k hk l 1 (le_refl 1))

/-- C3 amended: when only one method produced results (the other list
empty; surviving rows with unique present ids), the fusion output
preserves the surviving list's order in either direction — the re-sort
is a no-op — but each fused score is the reciprocal rank `1/(k + rank)`,
not the method's native score (see the counterexample for the
native-score clause). -/
theorem rrf_fusion_single_method_noop_resort (l : List Chunk) (k : ℚ)
    (hk : 0 ≤ k) (hsome : ∀ r ∈ l, r.chunk_id.isSome)
    (hnd : (l.filterMap (·.chunk_id)).Nodup) :
    ((rrf_fusion l [] k).map (fun c => c.chunk_id) =
        l.map (fun c => c.chunk_id) ∧
      (rrf_fusion l [] k).map (fun c => c.rrf_score) =
        (List.range l.length).map (fun i => some (1/(k + ((1 + i : Nat) : ℚ))))) ∧
    ((rrf_fusion [] l k).map (fun c => c.chunk_id) =
        l.map (fun c => c.chunk_id) ∧
      (rrf_fusion [] l k).map (fun c => c.rrf_score) =
        (List.range l.length).map (fun i => some (1/(k + ((1 + i : Nat) : ℚ))))) := by
  have hb : rrf_fusion l [] k = rrfFinalize (freshEntries k l 1) := by
    rw [rrf_fusion, rrfFused]
    show sortByKeyDesc (fun c : Chunk => c.rrf_score.getD 0)
      (rrfFinalize (rrfProcess k false l 1 [])) = rrfFinalize (freshEntries k l 1)
    exact rrf_single_pass_eval k false l hk hsome hnd
  have hv : rrf_fusion [] l k = rrfFinalize (freshEntries k l 1) := by
    rw [rrf_fusion, rrfFused]
    show sortByKeyDesc (fun c : Chunk => c.rrf_score.getD 0)
      (rrfFinalize (rrfProcess k true l 1 [])) = rrfFinalize (freshEntries k l 1)
    exact rrf_single_pass_eval k true l hk hsome hnd
  exact ⟨⟨by rw [hb, map_chunk_id_finalize_fresh k l 1 hsome],
      by rw [hb, map_rrf_score_finalize_fresh k l 1 hsome]⟩,
    ⟨by rw [hv, map_chunk_id_finalize_fresh k l 1 hsome],
      by rw [hv, map_rrf_score_finalize_fresh k l 1 hsome]⟩⟩

/-- Closed witness for the amended C3 theorem on a concrete two-row list,
in both the lexical-only and the semantic-only direction. -/
theorem rrf_fusion_single_method_noop_resort_witness :
    (rrf_fusion [{ chunk_id := some 1, bm25_score := some (1/2) },
      { chunk_id := some 2, bm25_score := some (1/3) }] [] 60).map
        (fun c => c.chunk_id) =
      ([{ chunk_id := some 1, bm25_score := some (1/2) },
        { chunk_id := some 2, bm25_score := some (1/3) }] : List Chunk).map
        (fun c => c.chunk_id) ∧
    (rrf_fusion [] [{ chunk_id := some 1, vector_score := some (1/2) },
      { chunk_id := some 2, vector_score := some (1/3) }] 60).map
        (fun c => c.chunk_id) =
      ([{ chunk_id := some 1, vector_score := some (1/2) },
        { chunk_id := some 2, vector_score := some (1/3) }] : List Chunk).map
        (fun c => c.chunk_id) :=
  ⟨(rrf_fusion_single_method_noop_resort
      [{ chunk_id := some 1, bm25_score := some (1/2) },
       { chunk_id := some 2, bm25_score := some (1/3) }] 60 (by norm_num)
      (by simp) (by simp)).1.1,
   (rrf_fusion_single_method_noop_resort
      [{ chunk_id := some 1, vector_score := some (1/2) },
       { chunk_id := some 2, vector_score := some (1/3) }] 60 (by norm_num)
      (by simp) (by simp)).2.1⟩

/-- C9 counterexample: when the embedding call raises for a claim,
`verify_response` returns no verification result at all — the exception
propagates out (`.error`), so the claim is not marked UNRESOLVED with
reasoning "evidence mapping failed" (no such handling exists in the
source). -/
theorem verify_response_embedding_failure_throws :
    verify_response (fun _ => .error "embedding service down") (fun _ _ => 0)
      (fun _ => none) "draft answer" [] [{ claim := "the sky is blue" }] THRESHOLDS =
      .error "embedding service down" := by
  simp [verify_response, map_all_claims_to_evidence, mapAllGo, map_claim_to_evidence,
    enrichChunks]

/-- The mapping loop raises at the first claim whose embedding call
fails: if every non-empty claim before `c0` embeds successfully and
`c0`'s embedding call fails, the loop aborts with that exception,
whatever `c0`'s position. -/
theorem mapAllGo_error_at (embed : String → Except String (List ℚ))
    (cosSim : List ℚ → List ℚ → ℚ) (chunks : List Chunk) (e : String) :
    ∀ (pre : List ClaimObj) (c0 : ClaimObj) (post : List ClaimObj) (i : Nat)
      (acc : List EvidenceMapping),
      c0.claim ≠ "" → embed c0.claim = .error e →
      (∀ c ∈ pre, c.claim ≠ "" → ∃ v, embed c.claim = .ok v) →
      mapAllGo embed cosSim chunks (pre ++ c0 :: post) i acc = .error e := by
  intro pre
  induction pre with
  | nil =>
    intro c0 post i acc hne hemb _
    rw [List.nil_append]
    simp only [mapAllGo]
    rw [if_neg hne]
    have hmc : map_claim_to_evidence embed cosSim c0.claim chunks = .error e := by
      simp [map_claim_to_evidence, hemb]
    rw [hmc]
  | cons c pre ih =>
    intro c0 post i acc hne hemb hpre
    rw [List.cons_append]
    by_cases hc : c.claim = ""
    · simp only [mapAllGo]
      rw [if_pos hc]
      exact ih c0 post (i + 1) acc hne hemb
        (fun x hx => hpre x (List.mem_cons_of_mem c hx))
    · obtain ⟨v, hv⟩ := hpre c (List.mem_cons_self c pre) hc
      cases hm : map_claim_to_evidence embed cosSim c.claim chunks with
      | error err =>
        exfalso
        simp [map_claim_to_evidence, hv] at hm
      | ok m =>
        simp only [mapAllGo]
        rw [if_neg hc, hm]
        exact ih c0 post (i + 1) _ hne hemb
          (fun x hx => hpre x (List.mem_cons_of_mem c hx))

/-- C9 amended: an embedding failure for a claim propagates as an
exception out of `verify_response`, at whatever position the failing
claim occurs (every earlier non-empty claim's embedding call having
succeeded — the Python loop raises at the first failing call); the
enclosing `rag_executor` try/except catches it and returns the pipeline
result unverified (`cove_enabled = false` with the error recorded),
rather than marking the claim UNRESOLVED. -/
theorem verify_response_embedding_failure_degrades_to_unverified
    (embed : String → Except String (List ℚ)) (cosSim : List ℚ → List ℚ → ℚ)
    (db : Int → Option (List ℚ)) (draft : String) (chunks : List Chunk)
    (claims : List ClaimObj) (th : Thresholds) (e : String) :
    (verify_response embed cosSim db draft chunks claims th = .error e →
      coveSection (verify_response embed cosSim db draft chunks claims th) =
        { cove_enabled := false, cove_error := some e, result := none }) ∧
    (∀ pre c0 post, claims = pre ++ c0 :: post → c0.claim ≠ "" →
      embed c0.claim = .error e →
      (∀ c ∈ pre, c.claim ≠ "" → ∃ v, embed c.claim = .ok v) →
      verify_response embed cosSim db draft chunks claims th = .error e) := by
  constructor
  · intro h
    simp [coveSection, h]
  · intro pre c0 post hc hne hemb hpre
    subst hc
    simp only [verify_response, map_all_claims_to_evidence]
    rw [if_neg (by simp),
      mapAllGo_error_at embed cosSim (enrichChunks db chunks) e pre c0 post 1 []
        hne hemb hpre]

/-- Closed witness for the amended C9 theorem: the embedding call fails
at the second claim, after the first claim embedded successfully. -/
theorem verify_response_embedding_failure_degrades_witness :
    coveSection (verify_response
      (fun s => if s = "second" then .error "boom" else .ok [])
      (fun _ _ => 0) (fun _ => none) "d" []
      [{ claim := "first" }, { claim := "second" }] THRESHOLDS) =
      { cove_enabled := false, cove_error := some "boom", result := none } :=
  (verify_response_embedding_failure_degrades_to_unverified
      (fun s => if s = "second" then .error "boom" else .ok [])
      (fun _ _ => 0) (fun _ => none) "d" []
      [{ claim := "first" }, { claim := "second" }] THRESHOLDS "boom").1
    ((verify_response_embedding_failure_degrades_to_unverified
        (fun s => if s = "second" then .error "boom" else .ok [])
        (fun _ _ => 0) (fun _ => none) "d" []
        [{ claim := "first" }, { claim := "second" }] THRESHOLDS "boom").2
      [{ claim := "first" }] { claim := "second" } [] rfl (by simp) (by simp)
      (by
        intro c hc hne
        simp only [List.mem_singleton] at hc
        subst hc
        exact ⟨[], by simp⟩))

/-- Token-set computations for the C8 counterexample queries
(`q1 = "a b c d e f g h i j k l"`, `q2 = q1 ++ " m"`, original
`"orig"`). -/
theorem overlap_orig_q1_inter : ((wordSet "orig").filter
    (fun w => (wordSet "a b c d e f g h i j k l").contains w)).length = 0 := by decide

/-- Cardinality: `|wordSet "orig"| = 1`. -/
theorem overlap_orig_card : (wordSet "orig").length = 1 := by decide

/-- Cardinality: `|wordSet q1 \ wordSet "orig"| = 12`. -/
theorem overlap_q1_diff_orig : ((wordSet "a b c d e f g h i j k l").filter
    (fun w => !(wordSet "orig").contains w)).length = 12 := by decide

/-- Evaluation: `overlapSim "orig" q1 = 0`. -/
theorem overlapSim_orig_q1 : overlapSim "orig" "a b c d e f g h i j k l" = 0 := by
  simp only [overlapSim]
  rw [overlap_orig_q1_inter, overlap_orig_card, overlap_q1_diff_orig]
  norm_num

/-- Cardinality: `|wordSet "orig" ∩ wordSet q2| = 0`. -/
theorem overlap_orig_q2_inter : ((wordSet "orig").filter
    (fun w => (wordSet "a b c d e f g h i j k l m").contains w)).length = 0 := by decide

/-- Cardinality: `|wordSet q2 \ wordSet "orig"| = 13`. -/
theorem overlap_q2_diff_orig : ((wordSet "a b c d e f g h i j k l m").filter
    (fun w => !(wordSet "orig").contains w)).length = 13 := by decide

/-- Evaluation: `overlapSim "orig" q2 = 0`. -/
theorem overlapSim_orig_q2 : overlapSim "orig" "a b c d e f g h i j k l m" = 0 := by
  simp only [overlapSim]
  rw [overlap_orig_q2_inter, overlap_orig_card, overlap_q2_diff_orig]
  norm_num

/-- Cardinality: `|wordSet q1 ∩ wordSet q2| = 12`. -/
theorem overlap_q1_q2_inter : ((wordSet "a b c d e f g h i j k l").filter
    (fun w => (wordSet "a b c d e f g h i j k l m").contains w)).length = 12 := by decide

/-- Cardinality: `|wordSet q1| = 12`. -/
theorem overlap_q1_card : (wordSet "a b c d e f g h i j k l").length = 12 := by decide

/-- Cardinality: `|wordSet q2 \ wordSet q1| = 1`. -/
theorem overlap_q2_diff_q1 : ((wordSet "a b c d e f g h i j k l m").filter
    (fun w => !(wordSet "a b c d e f g h i j k l").contains w)).length = 1 := by decide

/-- Evaluation: `overlapSim q1 q2 = 12/13 > 0.85`. -/
theorem overlapSim_q1_q2 :
    overlapSim "a b c d e f g h i j k l" "a b c d e f g h i j k l m" = 12/13 := by
  simp only [overlapSim]
  rw [overlap_q1_q2_inter, overlap_q1_card, overlap_q2_diff_q1]
  norm_num

/-- C8 counterexample: a well-formed model output carrying
`weight = 2` is passed through unchanged, so a returned variant has
weight outside `[0,1]`; moreover both returned variants (neither of them
the fallback: both have `variation_type = "general"`) have token-overlap
similarity `12/13 > 0.85`, because `_deduplicate_queries` returns lists
of ≤ 2 variants unchanged. -/
theorem expand_query_weight_and_overlap_counterexample :
    (expand_query "orig" 3 (.ok
      [{ query := some "a b c d e f g h i j k l", weight := some 2 },
       { query := some "a b c d e f g h i j k l m" }])).map
      (fun v => (v.query, v.weight, v.variation_type)) =
    [("a b c d e f g h i j k l", (2:ℚ), "general"),
     ("a b c d e f g h i j k l m", (9/10 : ℚ), "general")] ∧
    ¬ ((2:ℚ) ≤ 1) ∧
    overlapSim "a b c d e f g h i j k l" "a b c d e f g h i j k l m" = 12/13 ∧
    (85/100 : ℚ) < 12/13 := by
  refine ⟨?_, by norm_num, overlapSim_q1_q2, by norm_num⟩
  simp [expand_query, validateItems, deduplicateQueries, validate_query_quality,
    List.enum, List.enumFrom, overlapSim_orig_q1, overlapSim_orig_q2]
  norm_num

/-! ### MMR selection lemmas -/

theorem take_get_drop : ∀ (l : List Chunk) (i : Nat) (c : Chunk),
    l.get? i = some c → l = l.take i ++ c :: l.drop (i + 1) := by
  intro l
  induction l with
  | nil => intro i c h; exact absurd h (by simp)
  | cons x xs ih =>
    intro i c h
    cases i with
    | zero =>
      simp only [List.get?] at h
      injection h with h
      subst h
      simp
    | succ i =>
      simp only [List.get?] at h
      have := ih i c h
      simp only [List.take_succ_cons, List.drop_succ_cons, List.cons_append]
      exact congrArg (x :: ·) this

theorem mmrLoop_length (cosSim : List ℚ → List ℚ → ℚ) (lam : ℚ) (n : Nat) :
    ∀ (fuel : Nat) (sel rem : List Chunk), sel.length ≤ n →
      (mmrLoop cosSim lam n fuel sel rem).length ≤ n := by
  intro fuel
  induction fuel with
  | zero => intro sel rem h; exact h
  | succ fuel ih =>
    intro sel rem h
    rw [mmrLoop]
    split_ifs with hcond
    · cases hpop : popAt rem (mmrScan cosSim lam sel rem 0 none 0).2 with
      | none => exact h
      | some p =>
        obtain ⟨c0, rem'⟩ := p
        exact ih _ _ (by simpa using Nat.succ_le_of_lt hcond.1)
    · exact h

theorem mmrLoop_nodup_ids (cosSim : List ℚ → List ℚ → ℚ) (lam : ℚ) (n : Nat) :
    ∀ (fuel : Nat) (sel rem : List Chunk),
      (sel.map (fun c => c.chunk_id) ++ rem.map (fun c => c.chunk_id)).Nodup →
      ((mmrLoop cosSim lam n fuel sel rem).map (fun c => c.chunk_id)).Nodup := by
  intro fuel
  induction fuel with
  | zero => intro sel rem h; exact (List.nodup_append.mp h).1
  | succ fuel ih =>
    intro sel rem h
    rw [mmrLoop]
    split_ifs with hcond
    · cases hpop : popAt rem (mmrScan cosSim lam sel rem 0 none 0).2 with
      | none => exact (List.nodup_append.mp h).1
      | some p =>
        obtain ⟨c, rem'⟩ := p
        apply ih
        rw [popAt] at hpop
        cases hget : rem.get? (mmrScan cosSim lam sel rem 0 none 0).2 with
        | none => rw [hget] at hpop; exact absurd hpop (by simp)
        | some c0 =>
          rw [hget] at hpop
          simp only [Option.some.injEq, Prod.mk.injEq] at hpop
          obtain ⟨rfl, rfl⟩ := hpop
          have hdecomp := take_get_drop rem _ c0 hget
          set i := (mmrScan cosSim lam sel rem 0 none 0).2
          have hmapdec : rem.map (fun c => c.chunk_id) =
              (rem.take i).map (fun c => c.chunk_id) ++ c0.chunk_id ::
                (rem.drop (i + 1)).map (fun c => c.chunk_id) := by
            conv_lhs => rw [hdecomp]
            simp
          have hperm : List.Perm
              ((sel ++ [{ c0 with mmr_score := (mmrScan cosSim lam sel rem 0 none 0).1 }]).map
                  (fun c : Chunk => c.chunk_id) ++
                (rem.take i ++ rem.drop (i + 1)).map (fun c : Chunk => c.chunk_id))
              (sel.map (fun c : Chunk => c.chunk_id) ++
                rem.map (fun c : Chunk => c.chunk_id)) := by
            rw [hmapdec]
            simp only [List.map_append, List.map_cons, List.map_nil]
            rw [List.append_assoc]
            apply List.Perm.append_left
            rw [List.singleton_append]
            exact List.perm_middle.symm
          exact hperm.nodup_iff.mpr h
    · exact (List.nodup_append.mp h).1

/-- C7: for candidate lists with pairwise-distinct candidate ids,
diversity selection returns no two entries with the same id and at most
`n` entries (`n.toNat` reads the requested count; for `n ≤ 0` the output
is empty). -/
theorem mmr_select_no_duplicate_ids (cosSim : List ℚ → List ℚ → ℚ)
    (candidates : List Chunk) (n : Int) (lam : ℚ)
    (hnd : (candidates.map (fun c => c.chunk_id)).Nodup) :
    ((mmr_select cosSim candidates n lam).map (fun c => c.chunk_id)).Nodup ∧
    (mmr_select cosSim candidates n lam).length ≤ n.toNat := by
  simp only [mmr_select]
  split_ifs with h1 h2 h3 h4
  · simp
  · simp
  · exact ⟨hnd, by omega⟩
  · constructor
    · rw [List.map_take]
      exact List.Nodup.sublist (List.take_sublist _ _) hnd
    · simp only [List.length_take]
      omega
  · cases hcw : candidates.filter (fun c => c.embedding.isSome) with
    | nil => simp
    | cons c0 rest =>
      have hsub : ((c0 :: rest).map (fun c => c.chunk_id)).Nodup := by
        rw [← hcw]
        exact List.Nodup.sublist (List.Sublist.map _ (List.filter_sublist _)) hnd
      constructor
      · apply mmrLoop_nodup_ids
        simpa using hsub
      · apply mmrLoop_length
        simp only [List.length_singleton]
        omega

/-- Closed witness for the C7 theorem: three distinct-id candidates with
embeddings, `n = 2`. -/
theorem mmr_select_no_duplicate_ids_witness :
    ((mmr_select (fun _ _ => 0)
      [{ chunk_id := some 1, embedding := some [1] },
       { chunk_id := some 2, embedding := some [1] },
       { chunk_id := some 3, embedding := some [1] }] 2 (7/10)).map
      (fun c => c.chunk_id)).Nodup ∧
    (mmr_select (fun _ _ => 0)
      [{ chunk_id := some 1, embedding := some [1] },
       { chunk_id := some 2, embedding := some [1] },
       { chunk_id := some 3, embedding := some [1] }] 2 (7/10)).length ≤
      (2 : Int).toNat :=
  mmr_select_no_duplicate_ids (fun _ _ => 0)
    [{ chunk_id := some 1, embedding := some [1] },
     { chunk_id := some 2, embedding := some [1] },
     { chunk_id := some 3, embedding := some [1] }] 2 (7/10) (by simp)

/-- The `validate_query_quality` fallback guarantees a nonempty list. -/
theorem validate_query_quality_ne_nil (original : String) (expanded : List QueryVariant) :
    validate_query_quality original expanded ≠ [] := by
  simp only [validate_query_quality]
  split_ifs with h
  · simp
  · exact h

/-- The dedup accumulator loop only ever appends a variant whose overlap
with every kept variant is at most `0.85`, so its output is pairwise
within the bound. -/
theorem dedupGo_pairwise (qs : List QueryVariant) :
    ∀ acc : List QueryVariant,
      acc.Pairwise (fun a b => overlapSim b.query a.query ≤ 85/100) →
      (dedupGo acc qs).Pairwise (fun a b => overlapSim b.query a.query ≤ 85/100) := by
  induction qs with
  | nil => intro acc h; simpa [dedupGo] using h
  | cons q qs ih =>
    intro acc h
    simp only [dedupGo]
    by_cases hdup :
      acc.any (fun existing => decide (overlapSim q.query existing.query > 85/100)) = true
    · rw [if_pos hdup]
      exact ih acc h
    · rw [if_neg hdup]
      apply ih
      rw [List.pairwise_append]
      refine ⟨h, by simp, ?_⟩
      intro a ha b hb
      simp only [List.mem_singleton] at hb
      subst hb
      simp only [List.any_eq_true, decide_eq_true_eq, not_exists, not_and] at hdup
      push_neg at hdup
      exact hdup a ha

/-- C8 amended: `expand_query` always returns at least one variant, for
every original query and every (possibly malformed) model output; and
whenever more than two validated variants reach `_deduplicate_queries`,
its output is pairwise within the `0.85` token-overlap bound.  (The parts
of C8 the code violates: model-supplied weights are passed through
unchanged, so returned weights need not lie in `[0,1]`, and the dedup
guarantee does not apply when at most two variants are validated — see
the counterexample.) -/
theorem expand_query_fallback_and_dedup_guarantees :
    (∀ (query : String) (n : Nat) (llm : Except String (List RawVariant)),
      1 ≤ (expand_query query n llm).length) ∧
    (∀ qs : List QueryVariant, 2 < qs.length →
      (deduplicateQueries qs).Pairwise
        (fun a b => overlapSim b.query a.query ≤ 85/100)) := by
  constructor
  · intro query n llm
    match llm with
    | .error e => simp [expand_query]
    | .ok raw =>
      simp only [expand_query]
      have hd := validate_query_quality_ne_nil query
        (deduplicateQueries (validateItems raw))
      split_ifs with h
      · simp
      · have := List.length_pos.mpr hd
        omega
  · intro qs hlen
    unfold deduplicateQueries
    rw [if_neg (by omega)]
    exact dedupGo_pairwise qs [] (by simp)

/-- Closed witness for the amended C8 theorem: the fallback on a failed
model call, and a concrete three-variant dedup run. -/
theorem expand_query_fallback_and_dedup_witness :
    1 ≤ (expand_query "q" 3 (.error "fail")).length ∧
    (deduplicateQueries
      [{ query := "x", weight := 1 }, { query := "y", weight := 1 },
       { query := "z", weight := 1 }]).Pairwise
      (fun a b => overlapSim b.query a.query ≤ 85/100) :=
  ⟨expand_query_fallback_and_dedup_guarantees.1 "q" 3 (.error "fail"),
   expand_query_fallback_and_dedup_guarantees.2
     [{ query := "x", weight := 1 }, { query := "y", weight := 1 },
      { query := "z", weight := 1 }] (by norm_num)⟩

end LifeGuardPro
